import Mathlib

/-!
# Verification of the `proglog` on-disk commit log

Shallow embedding of the commit-log core of this repository:
the byte-level `store` (length-prefixed append-only file,
`internal/log/store.go`), the memory-mapped fixed-width `index`
(`internal/log/index.go`), the `segment` binding one store+index pair
(`internal/log/segment.go`), the `Log` that rotates segments and serves
reads (`internal/log/log.go`), and the `Replicator`'s close lifecycle
(`internal/log/replicator.go`).

Bytes are modelled as `Nat` (values < 256 where produced by the code),
files as lists of bytes, and the directory as an association list from a
segment's base offset to the bytes of its `<base>.store` / `<base>.index`
files.  Go's `uint64`/`uint32` arithmetic is modelled on `Nat` with
explicit `% 2^64` / `% 2^32` at exactly the operations the Go code
performs on machine integers.  Fallible operations return
`Except`/`Option`; a Go panic (out-of-range slice index) is modelled as
`none`/`.error` and noted where it occurs.
-/

/-- 2^64, the modulus of Go `uint64` arithmetic. -/
def W64 : Nat := 2 ^ 64

/-- 2^32, the modulus of Go `uint32` arithmetic. -/
def W32 : Nat := 2 ^ 32

/-- Go `uint32(x)` applied to a `uint64` value: keep the low 32 bits. -/
def u32 (n : Nat) : Nat := n % W32

/-- Go `uint64` subtraction `a - b` (two's-complement wraparound),
for `a b < 2^64`. -/
def u64sub (a b : Nat) : Nat := (a + W64 - b) % W64

/-- Go's conversion `int64(x)` of a `uint64` value: values with the top
bit set become negative (two's complement reinterpretation). -/
def int64of (n : Nat) : Int :=
  if n < 2 ^ 63 then (n : Int) else (n : Int) - (W64 : Int)

/-- Go's conversion `uint32(x)` of an `int64` value: the low 32 bits,
i.e. the nonnegative remainder mod 2^32. -/
def u32ofInt (i : Int) : Nat := (i % (W32 : Int)).toNat

/-- Big-endian encoding of `n` on `w` bytes (`encoding/binary.BigEndian`:
`PutUint64` / `PutUint32` and `binary.Write` with `enc`). -/
def be : Nat → Nat → List Nat
  | 0, _ => []
  | w + 1, n => be w (n / 256) ++ [n % 256]

/-- Big-endian decoding (`enc.Uint64` / `enc.Uint32`). -/
def beVal (bs : List Nat) : Nat := bs.foldl (fun a b => a * 256 + b) 0

/-- The slice `l[pos : pos+len]` of a byte list. -/
def sliceB (l : List Nat) (pos len : Nat) : List Nat := (l.drop pos).take len

/-- Overwrite `l[pos : pos+bs.length]` with `bs` (a write through the mmap). -/
def writeAt (l : List Nat) (pos : Nat) (bs : List Nat) : List Nat :=
  l.take pos ++ bs ++ l.drop (pos + bs.length)

/-- `os.Truncate(name, n)`: the file is cut or zero-extended to exactly
`n` bytes. -/
def padTrunc (n : Nat) (bs : List Nat) : List Nat :=
  (bs ++ List.replicate (n - bs.length) 0).take n

theorem be_length (w n : Nat) : (be w n).length = w := by
  induction w generalizing n with
  | zero => rfl
  | succ w ih => simp [be, ih]

theorem beVal_append (xs : List Nat) (b : Nat) :
    beVal (xs ++ [b]) = beVal xs * 256 + b := by
  simp [beVal, List.foldl_append]

theorem beVal_be (w n : Nat) : beVal (be w n) = n % 256 ^ w := by
  induction w generalizing n with
  | zero => simp [be, beVal, Nat.mod_one]
  | succ w ih =>
      rw [be, beVal_append, ih]
      have h : (256 : Nat) ^ (w + 1) = 256 * 256 ^ w := by ring
      rw [h, Nat.mod_mul]
      ring

theorem padTrunc_length (n : Nat) (bs : List Nat) :
    (padTrunc n bs).length = n := by
  simp [padTrunc]
  omega

theorem sliceB_append_exact (a b : List Nat) (len : Nat) :
    sliceB (a ++ b) a.length len = b.take len := by
  simp [sliceB, List.drop_left]

theorem sliceB_append_left (a b : List Nat) (pos len : Nat)
    (h : pos + len ≤ a.length) :
    sliceB (a ++ b) pos len = sliceB a pos len := by
  unfold sliceB
  rw [List.drop_append_of_le_length (by omega),
    List.take_append_of_le_length (by rw [List.length_drop]; omega)]

theorem sliceB_take (l : List Nat) (s pos len : Nat) (h : pos + len ≤ s) :
    sliceB (l.take s) pos len = sliceB l pos len := by
  unfold sliceB
  rw [List.drop_take, List.take_take]
  congr 1
  simp [Nat.min_def]
  omega

theorem sliceB_padTrunc (n : Nat) (bs : List Nat) (pos len : Nat)
    (h1 : pos + len ≤ bs.length) (h2 : pos + len ≤ n) :
    sliceB (padTrunc n bs) pos len = sliceB bs pos len := by
  unfold padTrunc
  rw [sliceB_take _ _ _ _ h2, sliceB_append_left _ _ _ _ h1]

theorem writeAt_length (m : List Nat) (p : Nat) (bs : List Nat)
    (h : p + bs.length ≤ m.length) :
    (writeAt m p bs).length = m.length := by
  simp [writeAt, List.length_take, List.length_drop]
  omega

theorem sliceB_writeAt_left (m : List Nat) (p : Nat) (bs : List Nat)
    (pos len : Nat) (h : pos + len ≤ p) (hp : p ≤ m.length) :
    sliceB (writeAt m p bs) pos len = sliceB m pos len := by
  unfold writeAt
  rw [List.append_assoc,
    sliceB_append_left _ _ _ _ (by rw [List.length_take]; omega),
    sliceB_take _ _ _ _ h]

theorem sliceB_writeAt_self (m : List Nat) (p : Nat) (bs : List Nat)
    (off len : Nat) (hlen : off + len ≤ bs.length) (hp : p ≤ m.length) :
    sliceB (writeAt m p bs) (p + off) len = sliceB bs off len := by
  unfold writeAt sliceB
  have h1 : (m.take p).length = p := by rw [List.length_take]; omega
  rw [List.append_assoc,
    show p + off = (m.take p).length + off by rw [h1], List.drop_append,
    List.drop_append_of_le_length (by omega),
    List.take_append_of_le_length (by rw [List.length_drop]; omega)]

theorem sliceB_eq_take (l : List Nat) (len : Nat) : sliceB l 0 len = l.take len := by
  simp [sliceB]

/-! ## Records and the codec -/

/-- `api.Record` (`Value []byte`, `Offset uint64`): opaque payload bytes
plus the server-assigned offset. -/
structure Record where
  Value : List Nat
  Offset : Nat
deriving DecidableEq

/-- Modelled from the spec: the record codec is an external collaborator
of the core ("a *record codec* that serializes a record to/from bytes";
the source uses `google.golang.org/protobuf`, which is not part of this
repository).  The model encodes the offset on 8 big-endian bytes
followed by the raw payload; the log treats the result as an opaque
blob, so only the round-trip property of the codec is relevant. -/
def marshal (r : Record) : List Nat := be 8 r.Offset ++ r.Value

/-- Modelled from the spec: inverse of `marshal` (`proto.Unmarshal`). -/
def unmarshal (p : List Nat) : Record :=
  { Value := p.drop 8, Offset := beVal (p.take 8) }

theorem marshal_length (r : Record) :
    (marshal r).length = 8 + r.Value.length := by
  simp [marshal, be_length]

theorem pow256_8 : (256 : Nat) ^ 8 = W64 := by norm_num [W64]

theorem pow256_4 : (256 : Nat) ^ 4 = W32 := by norm_num [W32]

theorem beVal_be8 (n : Nat) : beVal (be 8 n) = n % W64 := by
  rw [beVal_be, pow256_8]

theorem beVal_be4 (n : Nat) : beVal (be 4 n) = n % W32 := by
  rw [beVal_be, pow256_4]

theorem unmarshal_marshal (r : Record) (h : r.Offset < W64) :
    unmarshal (marshal r) = r := by
  have hbe : (be 8 r.Offset).length = 8 := be_length 8 _
  have h1 : List.drop 8 (be 8 r.Offset ++ r.Value) = r.Value := by
    have h2 := List.drop_left (be 8 r.Offset) r.Value
    rwa [hbe] at h2
  have h3 : List.take 8 (be 8 r.Offset ++ r.Value) = be 8 r.Offset := by
    have h4 := List.take_left (be 8 r.Offset) r.Value
    rwa [hbe] at h4
  unfold unmarshal marshal
  rw [h1, h3, beVal_be8, Nat.mod_eq_of_lt h]

/-! ## Store (`store.go`) -/

/-- `lenWidth`: bytes of the record's length prefix. -/
def lenWidth : Nat := 8

/-- `store`: the append-only byte file together with its buffered
writer.  The user-space buffer and the on-disk bytes are merged into
`data` — every modelled read flushes first, exactly as the code does —
and `size` mirrors the Go field.  `fileOpen` tracks whether the
underlying `os.File` has been closed. -/
structure Store where
  data : List Nat
  size : Nat
  fileOpen : Bool
deriving DecidableEq

/-- `newStore`: `size` is initialised from `os.Stat`. -/
def newStore (fileBytes : List Nat) : Store :=
  { data := fileBytes, size := fileBytes.length, fileOpen := true }

/-- `store.Append(p)`: remember `pos = size`, write the 8-byte
big-endian `len(p)` and then `p` through the buffered writer, and
advance `size` by `lenWidth + len(p)`; returns `(bytesWritten, pos)`.
A buffered write does not touch the file descriptor, so it does not
fail. -/
def Store.Append (s : Store) (p : List Nat) : Nat × Nat × Store :=
  (lenWidth + p.length, s.size,
    { s with data := s.data ++ (be 8 p.length ++ p),
             size := s.size + (lenWidth + p.length) })

/-- `store.Read(pos)`: flush, read the 8-byte prefix at `pos`, decode it
as `n`, then read `n` bytes at `pos+8`.  `File.ReadAt` returns an error
when fewer bytes are available than requested, and any file operation on
a closed file fails; both are modelled as `none`. -/
def Store.Read (s : Store) (pos : Nat) : Option (List Nat) :=
  if s.fileOpen = false then none
  else if s.data.length < pos + lenWidth then none
  else if s.data.length < pos + lenWidth + beVal (sliceB s.data pos lenWidth)
    then none
  else some (sliceB s.data (pos + lenWidth) (beVal (sliceB s.data pos lenWidth)))

/-- `store.Close`: flush the buffer, then close the file.  Closing an
already-closed `os.File` returns an error (the flush itself is a no-op
the second time because the buffer is then empty). -/
def Store.Close (s : Store) : Except Unit Store :=
  if s.fileOpen then .ok { s with fileOpen := false } else .error ()

/-- Reading back a freshly appended record yields exactly the appended
bytes (the flush-before-read discipline of `store.Read`). -/
theorem Store.Read_Append (s : Store) (p : List Nat)
    (hsz : s.size = s.data.length) (hopen : s.fileOpen = true)
    (hp : p.length < W64) :
    (s.Append p).2.2.Read (s.Append p).2.1 = some p := by
  have hbe : (be 8 p.length).length = 8 := be_length 8 _
  show Store.Read
    { s with data := s.data ++ (be 8 p.length ++ p),
             size := s.size + (lenWidth + p.length) } s.size = some p
  unfold Store.Read
  simp only [hopen, hsz]
  have hlen : (s.data ++ (be 8 p.length ++ p)).length
      = s.data.length + 8 + p.length := by simp [hbe]; omega
  have h1 : sliceB (s.data ++ (be 8 p.length ++ p)) s.data.length lenWidth
      = be 8 p.length := by
    rw [sliceB_append_exact, List.take_append_of_le_length (by simp [lenWidth, hbe])]
    exact List.take_of_length_le (by simp [lenWidth, hbe])
  have h2 : beVal (sliceB (s.data ++ (be 8 p.length ++ p))
      s.data.length lenWidth) = p.length := by
    rw [h1, beVal_be8, Nat.mod_eq_of_lt hp]
  rw [if_neg (by simp), h2,
    if_neg (by rw [hlen]; simp only [lenWidth]; omega),
    if_neg (by rw [hlen]; simp only [lenWidth]; omega),
    show s.data ++ (be 8 p.length ++ p) = (s.data ++ be 8 p.length) ++ p by
      simp,
    show s.data.length + lenWidth = (s.data ++ be 8 p.length).length by
      simp [hbe, lenWidth],
    sliceB_append_exact, List.take_length]

/-- A read that succeeds keeps succeeding with the same result after
more bytes are appended to the store: appends never move earlier
bytes. -/
theorem Store.Read_mono (s : Store) (p q : List Nat) (pos : Nat)
    (h : s.Read pos = some q) :
    (s.Append p).2.2.Read pos = some q := by
  unfold Store.Read at h
  by_cases hopen : s.fileOpen = false
  · rw [if_pos hopen] at h; exact absurd h (by simp)
  by_cases hg1 : s.data.length < pos + lenWidth
  · rw [if_neg hopen, if_pos hg1] at h; exact absurd h (by simp)
  by_cases hg2 : s.data.length < pos + lenWidth
      + beVal (sliceB s.data pos lenWidth)
  · rw [if_neg hopen, if_neg hg1, if_pos hg2] at h; exact absurd h (by simp)
  rw [if_neg hopen, if_neg hg1, if_neg hg2] at h
  have hbe : (be 8 p.length).length = 8 := be_length 8 _
  show Store.Read
    { s with data := s.data ++ (be 8 p.length ++ p),
             size := s.size + (lenWidth + p.length) } pos = some q
  unfold Store.Read
  have hlen : (s.data ++ (be 8 p.length ++ p)).length
      = s.data.length + 8 + p.length := by simp [hbe]; omega
  have hs1 : sliceB (s.data ++ (be 8 p.length ++ p)) pos lenWidth
      = sliceB s.data pos lenWidth :=
    sliceB_append_left _ _ _ _ (by simp only [lenWidth] at hg1 ⊢; omega)
  rw [if_neg (by simp [hopen]), hs1,
    if_neg (by rw [hlen]; omega),
    if_neg (by rw [hlen]; omega),
    sliceB_append_left _ _ _ _ (by simp only [lenWidth] at hg1 hg2 ⊢; omega)]
  exact h

/-! ## Index (`index.go`) -/

/-- `offWidth`: bytes of an entry's relative offset. -/
def offWidth : Nat := 4

/-- `posWidth`: bytes of an entry's store position. -/
def posWidth : Nat := 8

/-- `entWidth`: bytes of one index entry. -/
def entWidth : Nat := offWidth + posWidth

/-- `index`: the memory-mapped file and the size of its used prefix.
`mmap` holds the mapped bytes; the mapping is `MAP_SHARED`, so the disk
file mirrors it (the model re-materialises the file from `mmap` when the
index is closed).  `fileOpen` tracks whether the backing `os.File` has
been closed; the mapping itself outlives the file descriptor, so reads
and writes through `mmap` do not consult it. -/
structure Index where
  mmap : List Nat
  size : Nat
  fileOpen : Bool
deriving DecidableEq

/-- `newIndex`: `size` is the current file size (`os.Stat`), then the
file is truncated to `MaxIndexBytes` on disk and memory-mapped. -/
def newIndex (fileBytes : List Nat) (maxIndexBytes : Nat) : Index :=
  { mmap := padTrunc maxIndexBytes fileBytes,
    size := fileBytes.length, fileOpen := true }

/-- Decode of entry number `k`: `enc.Uint32(mmap[pos:pos+offWidth])` and
`enc.Uint64(mmap[pos+offWidth:pos+entWidth])` with `pos = k*entWidth`. -/
def rawEntry (m : List Nat) (k : Nat) : Nat × Nat :=
  (beVal (sliceB m (k * entWidth) offWidth),
   beVal (sliceB m (k * entWidth + offWidth) posWidth))

/-- The entry number `out` computed by `index.Read`: `-1` selects
`uint32(size/entWidth - 1)` — `uint64` arithmetic, so a size below one
entry underflows — and a nonnegative argument is converted by
`uint32(in)`. -/
def Index.entryNum (i : Index) (inp : Int) : Nat :=
  if inp = -1 then u32 (u64sub (i.size / entWidth) 1) else u32ofInt inp

/-- `index.Read(in)`: `io.EOF` (`none`) when the used prefix is empty or
the selected entry does not fit in it.  The code guards only against
`size`; when the entry fits the recorded `size` but overruns the
mapping itself — reachable when the index file on disk was longer than
`MaxIndexBytes`, since `newIndex` records `size` from `os.Stat` before
truncating to the cap — Go panics slicing `mmap[pos : pos+entWidth]`,
modelled as `none`.  Otherwise the decoded entry. -/
def Index.Read (i : Index) (inp : Int) : Option (Nat × Nat) :=
  if i.size = 0 then none
  else if i.size < i.entryNum inp * entWidth + entWidth then none
  else if i.mmap.length < i.entryNum inp * entWidth + entWidth then none
  else some (rawEntry i.mmap (i.entryNum inp))

/-- `index.isMaxed`: the mapping cannot hold another entry. -/
def Index.isMaxed (i : Index) : Bool :=
  decide (i.mmap.length < i.size + entWidth)

/-- `index.Write(off, pos)`: `io.EOF` when maxed; otherwise store the
4-byte BE `off` and the 8-byte BE `pos` at byte offset `size` and
advance `size` by one entry width. -/
def Index.Write (i : Index) (off pos : Nat) : Except Unit Index :=
  if i.isMaxed then .error ()
  else .ok { i with
    mmap := writeAt i.mmap i.size (be 4 off ++ be 8 pos),
    size := i.size + entWidth }

/-- `index.Close`: msync, fsync, truncate the file back to `size`,
close.  `Sync` on an already-closed file fails; on success the closed
index is returned together with the final on-disk bytes of the index
file (the used prefix of the mapping). -/
def Index.Close (i : Index) : Except Unit (Index × List Nat) :=
  if i.fileOpen then .ok ({ i with fileOpen := false }, i.mmap.take i.size)
  else .error ()

theorem u32_eq_of_lt {n : Nat} (h : n < W32) : u32 n = n := Nat.mod_eq_of_lt h

theorem u32ofInt_natCast (n : Nat) : u32ofInt (n : Int) = n % W32 := by
  unfold u32ofInt
  rw [show ((n : Int) % (W32 : Int)) = ((n % W32 : Nat) : Int) from
    (Int.natCast_mod n W32).symm, Int.toNat_ofNat]

theorem u64sub_sub {a b : Nat} (hb : b ≤ a) (ha : a < W64) :
    u64sub a b = a - b := by
  unfold u64sub
  rw [show a + W64 - b = (a - b) + W64 by omega, Nat.add_mod_right]
  exact Nat.mod_eq_of_lt (by omega)

theorem Index.Write_ok (i : Index) (off pos : Nat)
    (h : i.size + entWidth ≤ i.mmap.length) :
    i.Write off pos = .ok { i with
      mmap := writeAt i.mmap i.size (be 4 off ++ be 8 pos),
      size := i.size + entWidth } := by
  unfold Index.Write
  rw [if_neg (by simp only [Index.isMaxed, decide_eq_true_eq]; omega)]

theorem Index.Write_error (i : Index) (off pos : Nat)
    (h : i.mmap.length < i.size + entWidth) :
    i.Write off pos = .error () := by
  unfold Index.Write
  rw [if_pos (by simp only [Index.isMaxed, decide_eq_true_eq]; omega)]

/-- Entries strictly below the write position are untouched by a raw
mmap write. -/
theorem rawEntry_writeAt (m bs : List Nat) (p k : Nat)
    (hk : k * entWidth + entWidth ≤ p) (hp : p ≤ m.length) :
    rawEntry (writeAt m p bs) k = rawEntry m k := by
  unfold rawEntry
  rw [sliceB_writeAt_left _ _ _ _ _
      (by simp only [offWidth, entWidth, posWidth] at *; omega) hp,
    sliceB_writeAt_left _ _ _ _ _
      (by simp only [offWidth, entWidth, posWidth] at *; omega) hp]

/-- Decoding the entry just written at an aligned position returns the
written pair, reduced by the widths of the binary format. -/
theorem rawEntry_writeAt_self (m : List Nat) (k off pos : Nat)
    (h : k * entWidth + entWidth ≤ m.length) :
    rawEntry (writeAt m (k * entWidth) (be 4 off ++ be 8 pos)) k
      = (off % W32, pos % W64) := by
  have hb4 : (be 4 off).length = 4 := be_length 4 _
  have hb8 : (be 8 pos).length = 8 := be_length 8 _
  have hbs : (be 4 off ++ be 8 pos).length = 12 := by simp [hb4, hb8]
  have hpm : k * entWidth ≤ m.length := by
    simp only [entWidth, offWidth, posWidth] at *; omega
  unfold rawEntry
  have h1 : sliceB (writeAt m (k * entWidth) (be 4 off ++ be 8 pos))
      (k * entWidth) offWidth = be 4 off := by
    have h2 := sliceB_writeAt_self m (k * entWidth)
      (be 4 off ++ be 8 pos) 0 offWidth
      (by simp only [offWidth]; omega) hpm
    rw [Nat.add_zero] at h2
    rw [h2, sliceB_eq_take, List.take_append_of_le_length
      (by simp [offWidth, hb4])]
    exact List.take_of_length_le (by simp [offWidth, hb4])
  have h3 : sliceB (writeAt m (k * entWidth) (be 4 off ++ be 8 pos))
      (k * entWidth + offWidth) posWidth = be 8 pos := by
    have h4 := sliceB_writeAt_self m (k * entWidth)
      (be 4 off ++ be 8 pos) offWidth posWidth
      (by simp only [offWidth, posWidth]; omega) hpm
    rw [h4]
    unfold sliceB
    rw [show offWidth = (be 4 off).length by simp [offWidth, hb4],
      List.drop_left]
    exact List.take_of_length_le (by simp [posWidth, hb8])
  rw [h1, h3, beVal_be4, beVal_be8]

/-- `index.Read` at a nonnegative entry number inside the used prefix
(which must also lie inside the mapping, lest the code panic). -/
theorem Index.Read_nonneg (i : Index) (k : Nat) (hk : k < W32)
    (hg : k * entWidth + entWidth ≤ i.size)
    (hm : k * entWidth + entWidth ≤ i.mmap.length) :
    i.Read (k : Int) = some (rawEntry i.mmap k) := by
  have hnum : i.entryNum (k : Int) = k := by
    unfold Index.entryNum
    rw [if_neg (by omega), u32ofInt_natCast, Nat.mod_eq_of_lt hk]
  unfold Index.Read
  rw [hnum, if_neg (by simp only [entWidth, offWidth, posWidth] at hg; omega),
    if_neg (by omega), if_neg (by omega)]

/-- `index.Read(-1)` on a used prefix of exactly `c ≥ 1` entries returns
entry `c - 1` (this is how `newSegment` recovers `nextOffset`). -/
theorem Index.Read_neg1 (i : Index) (c : Nat) (hc : 1 ≤ c) (hc32 : c ≤ W32)
    (hsz : i.size = c * entWidth) (hm : i.size ≤ i.mmap.length) :
    i.Read (-1) = some (rawEntry i.mmap (c - 1)) := by
  have hw : W32 < W64 := by norm_num [W32, W64]
  have hdiv : i.size / entWidth = c := by
    rw [hsz, Nat.mul_div_cancel _ (by norm_num [entWidth, offWidth, posWidth])]
  have hnum : i.entryNum (-1) = c - 1 := by
    unfold Index.entryNum
    rw [if_pos rfl, hdiv, u64sub_sub hc (by omega),
      u32_eq_of_lt (by omega)]
  unfold Index.Read
  rw [hnum,
    if_neg (by rw [hsz]; simp only [entWidth, offWidth, posWidth]; omega),
    if_neg (by rw [hsz]; simp only [entWidth, offWidth, posWidth]
               exact fun hlt => absurd hlt (by omega)),
    if_neg (by rw [hsz] at hm
               simp only [entWidth, offWidth, posWidth] at hm ⊢
               omega)]

/-! ## Configuration (`config.go`) -/

/-- `Config`: capacity limits and the initial offset.  The Go struct
nests these fields under `Config.Segment`; the model flattens them. -/
structure Config where
  MaxStoreBytes : Nat
  MaxIndexBytes : Nat
  InitialOffset : Nat
deriving DecidableEq

/-! ## The log directory (file-system state)

`setup` recovers each base offset from the numeric filename prefix
(`strings.TrimSuffix` + `strconv.ParseUint`); every file the code
creates is named exactly `<base>.store` or `<base>.index`, so the model
keys each file by its parsed base offset and kind.  `os.ReadDir` lists
names in lexicographic order, but `setup` re-sorts the parsed offsets
numerically, so the listing order is irrelevant. -/

/-- The log directory: whether it exists, and the `<base>.store` /
`<base>.index` files keyed by base offset. -/
structure FS where
  dirExists : Bool
  stores : List (Nat × List Nat)
  indexes : List (Nat × List Nat)
deriving DecidableEq

/-- The empty, existing directory a fresh log is created in. -/
def fsEmpty : FS := { dirExists := true, stores := [], indexes := [] }

def alGet (l : List (Nat × List Nat)) (k : Nat) : Option (List Nat) :=
  match l.find? (fun e => decide (e.1 = k)) with
  | none => none
  | some e => some e.2

def alSet (l : List (Nat × List Nat)) (k : Nat) (v : List Nat) :
    List (Nat × List Nat) :=
  match l with
  | [] => [(k, v)]
  | e :: rest => if e.1 = k then (k, v) :: rest else e :: alSet rest k v

def alDel (l : List (Nat × List Nat)) (k : Nat) : List (Nat × List Nat) :=
  match l with
  | [] => []
  | e :: rest => if e.1 = k then rest else e :: alDel rest k

def insertSorted (x : Nat) : List Nat → List Nat
  | [] => [x]
  | y :: ys => if x ≤ y then x :: y :: ys else y :: insertSorted x ys

/-- `sort.Slice(baseOffsets, less)`: sort the parsed base offsets
ascending.  `sort.Slice` is an unstable sort, but on natural numbers
every sorting algorithm produces the same list, so insertion sort is an
exact model. -/
def sortNat : List Nat → List Nat
  | [] => []
  | x :: xs => insertSorted x (sortNat xs)

/-- The deduplication loop of `setup`: each base offset appears once for
the store file and once for the index file, so the loop advances `i` by
two and keeps the elements at even positions. -/
def skipAlt : List Nat → List Nat
  | [] => []
  | [x] => [x]
  | x :: _ :: rest => x :: skipAlt rest

/-! ## Segment (`segment.go`) -/

/-- `segment`: one store + one index under a base offset. -/
structure Segment where
  store : Store
  index : Index
  baseOffset : Nat
  nextOffset : Nat
  config : Config
deriving DecidableEq

/-- `newSegment(dir, baseOffset, c)`: open (creating if missing) the
`<base>.store` and `<base>.index` files, then recover `nextOffset` from
the last index entry: `baseOffset` on `io.EOF`, otherwise
`baseOffset + uint64(lastRelOffset) + 1` (uint64 addition).
File creation and the index pre-truncation reach the directory
immediately (`O_CREATE`, `os.Truncate`); later store writes stay in the
write buffer and index writes live in the shared mapping, both
re-materialised on close. -/
def newSegment (fs : FS) (baseOffset : Nat) (c : Config) : Segment × FS :=
  let storeBytes := (alGet fs.stores baseOffset).getD []
  let fs1 : FS := { fs with stores := alSet fs.stores baseOffset storeBytes }
  let st := newStore storeBytes
  let indexBytes := (alGet fs1.indexes baseOffset).getD []
  let ix := newIndex indexBytes c.MaxIndexBytes
  let fs2 : FS := { fs1 with indexes := alSet fs1.indexes baseOffset ix.mmap }
  let nxt := match ix.Read (-1) with
    | none => baseOffset
    | some e => (baseOffset + e.1 + 1) % W64
  ({ store := st, index := ix, baseOffset := baseOffset,
     nextOffset := nxt, config := c }, fs2)

/-- `segment.Append(record)`: stamp the record with `cur = nextOffset`,
marshal it, append to the store, then write the index entry with
relative offset `uint32(nextOffset - baseOffset)` and increment
`nextOffset` (uint64 arithmetic).  On an index-full error the store
mutation survives — the Go method returns before incrementing
`nextOffset` — so the partially updated segment is returned with the
error. -/
def Segment.Append (s : Segment) (r : Record) : Except Unit Nat × Segment :=
  let cur := s.nextOffset
  let p := marshal { r with Offset := cur }
  let st := (s.store.Append p).2.2
  let pos := (s.store.Append p).2.1
  match s.index.Write (u32 (u64sub s.nextOffset s.baseOffset)) pos with
  | .error _ => (.error (), { s with store := st })
  | .ok ix => (.ok cur,
      { s with store := st, index := ix,
               nextOffset := (s.nextOffset + 1) % W64 })

/-- `segment.Read(off)`: look up the store position of entry
`int64(off - baseOffset)` (uint64 subtraction reinterpreted as a signed
64-bit value), read the store bytes there, unmarshal. -/
def Segment.Read (s : Segment) (off : Nat) : Option Record :=
  match s.index.Read (int64of (u64sub off s.baseOffset)) with
  | none => none
  | some e =>
    match s.store.Read e.2 with
    | none => none
    | some p => some (unmarshal p)

/-- `segment.IsMaxed`: store cap, index cap, or mapping exhausted. -/
def Segment.IsMaxed (s : Segment) : Bool :=
  decide (s.config.MaxStoreBytes ≤ s.store.size) ||
  decide (s.config.MaxIndexBytes ≤ s.index.size) ||
  s.index.isMaxed

/-- `segment.Close`: close the index, then the store; the first error
aborts.  On success also yields the final on-disk bytes of the index and
store files (truncated mapping, flushed buffer). -/
def Segment.Close (s : Segment) :
    Except Unit (Segment × List Nat × List Nat) :=
  match s.index.Close with
  | .error _ => .error ()
  | .ok ixr =>
    match s.store.Close with
    | .error _ => .error ()
    | .ok st => .ok ({ s with index := ixr.1, store := st }, st.data, ixr.2)

/-- `segment.Remove`: close, then `os.Remove` the index file and the
store file; removing a non-existent file fails. -/
def Segment.Remove (s : Segment) (fs : FS) : Except Unit FS :=
  match s.Close with
  | .error _ => .error ()
  | .ok _ =>
    match alGet fs.indexes s.baseOffset with
    | none => .error ()
    | some _ =>
      let fs1 : FS := { fs with indexes := alDel fs.indexes s.baseOffset }
      match alGet fs1.stores s.baseOffset with
      | none => .error ()
      | some _ => .ok { fs1 with stores := alDel fs1.stores s.baseOffset }

/-! ## Log (`log.go`) -/

/-- `Log`: the segment list and the `activeSegment` pointer.  In Go the
pointer aliases the last element of `segments` in every state reachable
with a nonempty list; the model keeps the pointed-to value in `active`
and updates it wherever the Go code assigns `l.activeSegment` or
mutates the segment it points to.  `Truncate` does neither. -/
structure Log where
  config : Config
  segments : List Segment
  active : Option Segment
deriving DecidableEq

/-- Alias for the package-level `newSegment` constructor; the method
`Log.newSegment` below would otherwise shadow the name in its own
body. -/
def newSegmentF : FS → Nat → Config → Segment × FS := newSegment

/-- `Log.newSegment(off)` (the method): create a segment at `off`,
append it to `segments`, make it the active segment. -/
def Log.newSegment (l : Log) (fs : FS) (off : Nat) : Log × FS :=
  let r := newSegmentF fs off l.config
  ({ l with segments := l.segments ++ [r.1], active := some r.1 }, r.2)

/-- `setup`: list the directory (`os.ReadDir` fails when it does not
exist), parse and numerically sort the base offsets — each base appears
twice, once per file — open a segment for every other entry, and create
a segment at `InitialOffset` when none were found. -/
def Log.setup (l : Log) (fs : FS) : Except Unit (Log × FS) :=
  if fs.dirExists = false then .error ()
  else
    let bases := skipAlt (sortNat
      ((fs.stores.map Prod.fst) ++ (fs.indexes.map Prod.fst)))
    let lf := bases.foldl (fun acc b => Log.newSegment acc.1 acc.2 b) (l, fs)
    if lf.1.segments.isEmpty then
      .ok (Log.newSegment lf.1 lf.2 l.config.InitialOffset)
    else .ok lf

/-- `NewLog(dir, c)`: apply the defaults — either cap becomes 1024 when
zero — then `setup` on a log with no segments. -/
def NewLog (fs : FS) (c : Config) : Except Unit (Log × FS) :=
  let c1 : Config :=
    { c with
      MaxStoreBytes := if c.MaxStoreBytes = 0 then 1024 else c.MaxStoreBytes,
      MaxIndexBytes := if c.MaxIndexBytes = 0 then 1024 else c.MaxIndexBytes }
  Log.setup { config := c1, segments := [], active := none } fs

/-- `highestOffset` (unexported): `segments[len(segments)-1].nextOffset`,
returning 0 when that is 0 and `nextOffset - 1` otherwise.  The slice
index panics when the segment list is empty (`none`). -/
def Log.highestOffset (l : Log) : Option Nat :=
  match l.segments.getLast? with
  | none => none
  | some s => if s.nextOffset = 0 then some 0 else some (s.nextOffset - 1)

/-- `HighestOffset` (read-locked wrapper). -/
def Log.HighestOffset (l : Log) : Option Nat := l.highestOffset

/-- `LowestOffset`: `segments[0].baseOffset`; the index panics when the
segment list is empty (`none`). -/
def Log.LowestOffset (l : Log) : Option Nat :=
  match l.segments.head? with
  | none => none
  | some s => some s.baseOffset

/-- `Log.Append`: compute `highestOffset` (panicking on an empty segment
slice), rotate to a new segment at `highestOffset + 1` when the active
segment is maxed, then delegate to the active segment's `Append`.  The
active segment is the last element of `segments` whenever Go reaches
this point — `highestOffset` has already panicked otherwise — so the
model reads it there and writes the mutated segment back to both the
list and the pointer. -/
def Log.Append (l : Log) (r : Record) (fs : FS) :
    Except Unit Nat × Log × FS :=
  match l.highestOffset with
  | none => (.error (), l, fs)
  | some h =>
    let rot : Log × FS :=
      match l.segments.getLast? with
      | some act =>
        if act.IsMaxed then l.newSegment fs ((h + 1) % W64) else (l, fs)
      | none => (l, fs)
    match rot.1.segments.getLast? with
    | none => (.error (), rot.1, rot.2)
    | some act =>
      let ap := act.Append r
      (ap.1,
        { rot.1 with
          segments := rot.1.segments.dropLast ++ [ap.2],
          active := some ap.2 },
        rot.2)

/-- The error kinds surfacing from `Log.Read`:
`api.ErrOffsetOutOfRange{Offset}` or an `io.EOF`-style read failure. -/
inductive ReadErr where
  | outOfRange : Nat → ReadErr
  | eof : ReadErr
deriving DecidableEq

/-- `Log.Read(off)`: linear-scan for the first segment whose
`[baseOffset, nextOffset)` range contains `off`; fail with
`ErrOffsetOutOfRange{off}` when there is none.  The source re-checks
`s.nextOffset <= off` on the segment it found; the re-check can never
fire and is kept as written. -/
def Log.Read (l : Log) (off : Nat) : Except ReadErr Record :=
  match l.segments.find? (fun s =>
      decide (s.baseOffset ≤ off) && decide (off < s.nextOffset)) with
  | none => .error (.outOfRange off)
  | some s =>
    if s.nextOffset ≤ off then .error (.outOfRange off)
    else
      match s.Read off with
      | none => .error .eof
      | some r => .ok r

/-- Close all segments in order, threading the final file bytes of each
into the directory; the first error aborts the loop. -/
def closeSegs : List Segment → FS → Except Unit (List Segment × FS)
  | [], fs => .ok ([], fs)
  | s :: rest, fs =>
    match s.Close with
    | .error _ => .error ()
    | .ok r =>
      let fs1 : FS := { fs with
        stores := alSet fs.stores s.baseOffset r.2.1,
        indexes := alSet fs.indexes s.baseOffset r.2.2 }
      match closeSegs rest fs1 with
      | .error _ => .error ()
      | .ok lr => .ok (r.1 :: lr.1, lr.2)

/-- `Log.Close`: close every segment; no `closed` flag is consulted or
set.  The segments are mutated in place in Go; the active pointer keeps
aliasing the (now closed) last element when the list is nonempty. -/
def Log.Close (l : Log) (fs : FS) : Except Unit (Log × FS) :=
  match closeSegs l.segments fs with
  | .error _ => .error ()
  | .ok r =>
    let act : Option Segment :=
      match r.1.getLast? with
      | none => l.active
      | some s => some s
    .ok ({ l with segments := r.1, active := act }, r.2)

/-- `Log.Remove`: close, then `os.RemoveAll(l.Dir)`, which deletes the
directory itself (and never fails on a missing path). -/
def Log.Remove (l : Log) (fs : FS) : Except Unit (Log × FS) :=
  match l.Close fs with
  | .error _ => .error ()
  | .ok r => .ok (r.1, { dirExists := false, stores := [], indexes := [] })

/-- `Log.Reset`: `Remove`, then `setup`.  `setup` begins with
`os.ReadDir` on the just-deleted directory and nothing recreates it. -/
def Log.Reset (l : Log) (fs : FS) : Except Unit (Log × FS) :=
  match l.Remove fs with
  | .error _ => .error ()
  | .ok r => r.1.setup r.2

/-- The loop of `Truncate`: remove (close + delete files) each segment
with `nextOffset ≤ bound`, keep the rest; an error aborts before
`l.segments` is reassigned. -/
def truncGo : List Segment → Nat → FS → Except Unit (List Segment × FS)
  | [], _, fs => .ok ([], fs)
  | s :: rest, bound, fs =>
    if s.nextOffset ≤ bound then
      match s.Remove fs with
      | .error _ => .error ()
      | .ok fs1 => truncGo rest bound fs1
    else
      match truncGo rest bound fs with
      | .error _ => .error ()
      | .ok r => .ok (s :: r.1, r.2)

/-- `Log.Truncate(lowest)`: drop every segment whose
`nextOffset ≤ lowest+1` (uint64 addition).  `l.activeSegment` is not
updated. -/
def Log.Truncate (l : Log) (lowest : Nat) (fs : FS) :
    Except Unit (Log × FS) :=
  match truncGo l.segments ((lowest + 1) % W64) fs with
  | .error _ => .error ()
  | .ok r => .ok ({ l with segments := r.1 }, r.2)

/-! ## Replicator (`replicator.go`) — the close lifecycle -/

/-- The `Replicator` state guarded by its mutex: the per-peer channel
map (`none` until lazily allocated; only the peer names matter to the
lifecycle), the `closed` flag, whether the `close` channel has been
allocated and whether it has been closed, and the lazily allocated
logger.  The spawned goroutines and gRPC streams live outside the
model. -/
structure Replicator where
  servers : Option (List String)
  closed : Bool
  closeChAlloc : Bool
  closeChClosed : Bool
  loggerAlloc : Bool
deriving DecidableEq

/-- `init`: allocate whatever is still nil. -/
def Replicator.lazyInit (r : Replicator) : Replicator :=
  { r with
    loggerAlloc := true,
    servers := some (r.servers.getD []),
    closeChAlloc := true }

/-- `Replicator.Close`: under the lock, `init`; if already closed,
return `nil` unchanged; otherwise set `closed`, close the `close`
channel and return `nil`.  The returned error is always `nil`, kept as
an `Except` to mirror the Go signature. -/
def Replicator.Close (r : Replicator) : Except Unit Replicator :=
  let r1 := r.lazyInit
  if r1.closed then .ok r1
  else .ok { r1 with closed := true, closeChClosed := true }

/-! ## Well-formedness invariants

`ConfWF` bounds the configuration so that the binary formats can
represent the log: at least one entry must fit in the index file
(otherwise every `Append` fails), the index cap must keep a segment's
entry count within the index format's `uint32` relative offsets, the
store cap must be positive (the code's defaulting guarantees it), and
the initial offset must be a `uint64`. -/
structure ConfWF (c : Config) : Prop where
  idx12 : entWidth ≤ c.MaxIndexBytes
  idx32 : c.MaxIndexBytes ≤ entWidth * W32
  store1 : 1 ≤ c.MaxStoreBytes
  initLt : c.InitialOffset < W64

/-- Per-segment invariant maintained by the log's operations. -/
structure SegWF (c : Config) (s : Segment) : Prop where
  cfg : s.config = c
  baseLe : s.baseOffset ≤ s.nextOffset
  nextLt : s.nextOffset < W64
  cnt32 : s.nextOffset - s.baseOffset ≤ W32
  sizeEq : s.index.size = (s.nextOffset - s.baseOffset) * entWidth
  mmapLen : s.index.mmap.length = c.MaxIndexBytes
  sizeLe : s.index.size ≤ c.MaxIndexBytes
  storeSz : s.store.size = s.store.data.length
  sOpen : s.store.fileOpen = true
  iOpen : s.index.fileOpen = true
  storeCnt : s.nextOffset = s.baseOffset → s.store.data = []
  rels : ∀ k, k < s.nextOffset - s.baseOffset →
    (rawEntry s.index.mmap k).1 = k

/-- The number of records held by a segment. -/
def segCount (s : Segment) : Nat := s.nextOffset - s.baseOffset

/-- The successful result of `segment.Append` (the fields the Go method
assigns when `index.Write` does not fail). -/
def segAppended (s : Segment) (r : Record) : Segment :=
  { s with
    store := (s.store.Append (marshal { r with Offset := s.nextOffset })).2.2,
    index := { s.index with
      mmap := writeAt s.index.mmap s.index.size
        (be 4 (u32 (u64sub s.nextOffset s.baseOffset)) ++ be 8 s.store.size),
      size := s.index.size + entWidth },
    nextOffset := (s.nextOffset + 1) % W64 }

theorem Segment.Append_ok (c : Config) (s : Segment) (r : Record)
    (hwf : SegWF c s) (hroom : s.index.size + entWidth ≤ c.MaxIndexBytes) :
    s.Append r = (.ok s.nextOffset, segAppended s r) := by
  simp only [Segment.Append]
  rw [Index.Write_ok _ _ _ (by rw [hwf.mmapLen]; exact hroom)]
  rfl

theorem W32_lt_W64 : W32 < W64 := by norm_num [W32, W64]

theorem W32_lt_two63 : W32 < 2 ^ 63 := by norm_num [W32]

theorem segCount_lt_W32 (c : Config) (s : Segment) (hwf : SegWF c s)
    (hc : ConfWF c)
    (hroom : s.index.size + entWidth ≤ c.MaxIndexBytes) :
    segCount s < W32 := by
  have h1 := hwf.sizeEq
  have h2 := hc.idx32
  unfold segCount
  simp only [entWidth, offWidth, posWidth] at h1 h2 hroom
  omega

theorem segAppended_WF (c : Config) (s : Segment) (r : Record)
    (hwf : SegWF c s) (hroom : s.index.size + entWidth ≤ c.MaxIndexBytes)
    (hc : ConfWF c) (hnw : s.nextOffset + 1 < W64) :
    SegWF c (segAppended s r) := by
  have hcnt := segCount_lt_W32 c s hwf hc hroom
  unfold segCount at hcnt
  have hmod : (s.nextOffset + 1) % W64 = s.nextOffset + 1 :=
    Nat.mod_eq_of_lt hnw
  have hbs : (be 4 (u32 (u64sub s.nextOffset s.baseOffset))
      ++ be 8 s.store.size).length = entWidth := by
    simp [be_length, entWidth, offWidth, posWidth]
  have hb := hwf.baseLe
  have hsz := hwf.sizeEq
  have hml := hwf.mmapLen
  unfold segAppended
  refine ⟨hwf.cfg, ?_, ?_, ?_, ?_, ?_, hroom, ?_, hwf.sOpen, hwf.iOpen,
    ?_, ?_⟩
  · show s.baseOffset ≤ (s.nextOffset + 1) % W64
    rw [hmod]; omega
  · show (s.nextOffset + 1) % W64 < W64
    rw [hmod]; omega
  · show (s.nextOffset + 1) % W64 - s.baseOffset ≤ W32
    rw [hmod]; omega
  · show s.index.size + entWidth
        = ((s.nextOffset + 1) % W64 - s.baseOffset) * entWidth
    rw [hmod, hsz]
    have h5 : s.nextOffset + 1 - s.baseOffset
        = (s.nextOffset - s.baseOffset) + 1 := by omega
    rw [h5, Nat.succ_mul]
  · show (writeAt s.index.mmap s.index.size _).length = c.MaxIndexBytes
    rw [writeAt_length _ _ _ (by rw [hbs, hml]; exact hroom), hml]
  · show (s.store.Append (marshal { r with Offset := s.nextOffset })).2.2.size
      = (s.store.Append (marshal { r with Offset := s.nextOffset })).2.2.data.length
    simp only [Store.Append]
    simp [be_length, hwf.storeSz, lenWidth]
  · intro hne
    exact absurd hne
      (by show (s.nextOffset + 1) % W64 ≠ s.baseOffset; rw [hmod]; omega)
  · intro k hk
    have hk2 : k < (s.nextOffset + 1) % W64 - s.baseOffset := hk
    rw [hmod] at hk2
    show (rawEntry (writeAt s.index.mmap s.index.size
      (be 4 (u32 (u64sub s.nextOffset s.baseOffset))
        ++ be 8 s.store.size)) k).1 = k
    rcases Nat.lt_or_ge k (s.nextOffset - s.baseOffset) with hlt | hge
    · rw [rawEntry_writeAt _ _ _ _
        (by rw [hsz]
            calc k * entWidth + entWidth = (k + 1) * entWidth := by ring
              _ ≤ (s.nextOffset - s.baseOffset) * entWidth :=
                  Nat.mul_le_mul_right _ hlt)
        (by rw [hml]; exact hwf.sizeLe)]
      exact hwf.rels k hlt
    · have hkeq : k = s.nextOffset - s.baseOffset := by omega
      subst hkeq
      rw [hsz, rawEntry_writeAt_self _ _ _ _
        (by rw [← hsz, hml]; exact hroom)]
      show u32 (u64sub s.nextOffset s.baseOffset) % W32
        = s.nextOffset - s.baseOffset
      rw [u64sub_sub hb hwf.nextLt]
      unfold u32
      rw [Nat.mod_mod_of_dvd _ dvd_rfl, Nat.mod_eq_of_lt hcnt]

theorem entWidth_pos : 0 < entWidth := by norm_num [entWidth, offWidth, posWidth]

theorem int64of_small (n : Nat) (h : n < 2 ^ 63) : int64of n = (n : Int) := by
  unfold int64of; rw [if_pos h]

theorem Index.entryNum_natCast (i : Index) (k : Nat) :
    i.entryNum (k : Int) = k % W32 := by
  unfold Index.entryNum
  rw [if_neg (by omega), u32ofInt_natCast]

/-- A successful `index.Read` of a nonnegative entry number still
succeeds with the same entry after a fresh entry is written at the end
of the used prefix. -/
theorem Index.Read_writeAt_pres (i : Index) (k : Nat) (e : Nat × Nat)
    (bs : List Nat) (h : i.Read (k : Int) = some e)
    (hle : i.size ≤ i.mmap.length) :
    Index.Read { i with mmap := writeAt i.mmap i.size bs,
                        size := i.size + entWidth } (k : Int) = some e := by
  have hE := entWidth_pos
  unfold Index.Read at h ⊢
  rw [Index.entryNum_natCast] at h
  rw [Index.entryNum_natCast]
  by_cases h0 : i.size = 0
  · rw [if_pos h0] at h; exact absurd h (by simp)
  rw [if_neg h0] at h
  by_cases hg : i.size < k % W32 * entWidth + entWidth
  · rw [if_pos hg] at h; exact absurd h (by simp)
  rw [if_neg hg] at h
  by_cases hg2 : i.mmap.length < k % W32 * entWidth + entWidth
  · rw [if_pos hg2] at h; exact absurd h (by simp)
  rw [if_neg hg2] at h
  have hwl : i.mmap.length ≤ (writeAt i.mmap i.size bs).length := by
    unfold writeAt
    simp only [List.length_append, List.length_take, List.length_drop]
    omega
  rw [if_neg (by simp only []; omega), if_neg (by simp only []; omega),
    if_neg (by simp only []; omega)]
  show some (rawEntry (writeAt i.mmap i.size bs) (k % W32)) = some e
  rw [rawEntry_writeAt _ _ _ _ (by omega) hle]
  exact h

/-- Reading the just-appended offset from the appended segment yields a
record carrying the appended payload and the assigned offset. -/
theorem segAppended_Read (c : Config) (s : Segment) (r : Record)
    (hwf : SegWF c s) (hroom : s.index.size + entWidth ≤ c.MaxIndexBytes)
    (hc : ConfWF c) (hnw : s.nextOffset + 1 < W64)
    (hsl : s.store.data.length + (8 + r.Value.length) < W64) :
    (segAppended s r).Read s.nextOffset
      = some { Value := r.Value, Offset := s.nextOffset } := by
  have hcnt := segCount_lt_W32 c s hwf hc hroom
  unfold segCount at hcnt
  have hsub : u64sub s.nextOffset s.baseOffset
      = s.nextOffset - s.baseOffset := u64sub_sub hwf.baseLe hwf.nextLt
  have hssz : s.store.size < W64 := by rw [hwf.storeSz]; omega
  unfold Segment.Read
  rw [show u64sub s.nextOffset (segAppended s r).baseOffset
      = s.nextOffset - s.baseOffset from hsub,
    int64of_small _ (lt_trans hcnt W32_lt_two63)]
  have hg : (s.nextOffset - s.baseOffset) * entWidth + entWidth
      ≤ (segAppended s r).index.size := by
    show _ ≤ s.index.size + entWidth
    rw [hwf.sizeEq]
  have hgm : (s.nextOffset - s.baseOffset) * entWidth + entWidth
      ≤ (segAppended s r).index.mmap.length := by
    show _ ≤ (writeAt s.index.mmap s.index.size
      (be 4 (u32 (u64sub s.nextOffset s.baseOffset))
        ++ be 8 s.store.size)).length
    rw [writeAt_length _ _ _ (by
        rw [List.length_append, be_length, be_length, hwf.mmapLen]
        have hr := hroom
        simp only [entWidth, offWidth, posWidth] at hr
        omega),
      hwf.mmapLen, ← hwf.sizeEq]
    exact hroom
  have hidx := Index.Read_nonneg (segAppended s r).index
    (s.nextOffset - s.baseOffset) hcnt hg hgm
  have hrw : rawEntry (segAppended s r).index.mmap
      (s.nextOffset - s.baseOffset)
      = (s.nextOffset - s.baseOffset, s.store.size) := by
    show rawEntry (writeAt s.index.mmap s.index.size
      (be 4 (u32 (u64sub s.nextOffset s.baseOffset)) ++ be 8 s.store.size))
      (s.nextOffset - s.baseOffset) = _
    rw [show s.index.size = (s.nextOffset - s.baseOffset) * entWidth from
        hwf.sizeEq,
      rawEntry_writeAt_self _ _ _ _
        (by rw [← hwf.sizeEq, hwf.mmapLen]; exact hroom)]
    refine Prod.ext ?_ ?_
    · show u32 (u64sub s.nextOffset s.baseOffset) % W32
        = s.nextOffset - s.baseOffset
      rw [hsub]
      unfold u32
      rw [Nat.mod_mod_of_dvd _ dvd_rfl, Nat.mod_eq_of_lt hcnt]
    · show s.store.size % W64 = s.store.size
      exact Nat.mod_eq_of_lt hssz
  rw [hrw] at hidx
  rw [hidx]
  dsimp only
  have hp : (marshal { r with Offset := s.nextOffset }).length < W64 := by
    rw [marshal_length]
    show 8 + r.Value.length < W64
    omega
  have hst : (segAppended s r).store.Read s.store.size
      = some (marshal { r with Offset := s.nextOffset }) :=
    Store.Read_Append s.store _ hwf.storeSz hwf.sOpen hp
  rw [hst]
  dsimp only
  rw [unmarshal_marshal _ (show s.nextOffset < W64 from hwf.nextLt)]

/-- A successful `segment.Read` of a contained offset is unchanged by an
append to the same segment. -/
theorem segAppended_Read_pres (c : Config) (s : Segment) (r r0 : Record)
    (off : Nat) (hwf : SegWF c s)
    (hoff1 : s.baseOffset ≤ off) (hoff2 : off < s.nextOffset)
    (h : s.Read off = some r0) :
    (segAppended s r).Read off = some r0 := by
  have hk32 : off - s.baseOffset < W32 := by
    have := hwf.cnt32; omega
  have hsub : u64sub off s.baseOffset = off - s.baseOffset :=
    u64sub_sub hoff1 (lt_trans hoff2 hwf.nextLt)
  unfold Segment.Read at h ⊢
  rw [hsub, int64of_small _ (lt_trans hk32 W32_lt_two63)] at h
  rw [show u64sub off (segAppended s r).baseOffset = off - s.baseOffset from
      hsub,
    int64of_small _ (lt_trans hk32 W32_lt_two63)]
  cases hidx : s.index.Read ((off - s.baseOffset : Nat) : Int) with
  | none => rw [hidx] at h; exact absurd h (by simp)
  | some e =>
    rw [hidx] at h
    dsimp only at h
    have hidx2 : (segAppended s r).index.Read
        ((off - s.baseOffset : Nat) : Int) = some e := by
      show Index.Read { s.index with
        mmap := writeAt s.index.mmap s.index.size _,
        size := s.index.size + entWidth } _ = some e
      exact Index.Read_writeAt_pres s.index _ e _ hidx
        (by rw [hwf.mmapLen]; exact hwf.sizeLe)
    rw [hidx2]
    dsimp only
    cases hst : s.store.Read e.2 with
    | none => rw [hst] at h; exact absurd h (by simp)
    | some p =>
      rw [hst] at h
      have hst2 : (segAppended s r).store.Read e.2 = some p :=
        Store.Read_mono s.store _ p e.2 hst
      rw [hst2]
      dsimp only
      dsimp only at h
      exact h

/-! ## Fresh segments and directory bookkeeping -/

/-- The segment produced by `newSegment` on files that do not yet
exist: empty store, empty index prefix, `nextOffset = baseOffset`. -/
def freshSeg (c : Config) (b : Nat) : Segment :=
  { store := newStore [], index := newIndex [] c.MaxIndexBytes,
    baseOffset := b, nextOffset := b, config := c }

theorem alGet_eq_none (l : List (Nat × List Nat)) (k : Nat)
    (h : k ∉ l.map Prod.fst) : alGet l k = none := by
  unfold alGet
  rw [List.find?_eq_none.mpr]
  intro e he
  simp only [decide_eq_true_eq]
  intro hk
  exact h (by rw [← hk]; exact List.mem_map_of_mem Prod.fst he)

theorem alSet_absent (l : List (Nat × List Nat)) (k : Nat) (v : List Nat)
    (h : alGet l k = none) : alSet l k v = l ++ [(k, v)] := by
  induction l with
  | nil => rfl
  | cons e rest ih =>
    unfold alGet at h
    rw [List.find?_cons] at h
    by_cases he : e.1 = k
    · simp [he] at h
    · rw [decide_eq_false he] at h
      dsimp only at h
      unfold alSet
      rw [if_neg he, ih h]
      simp

theorem freshSeg_WF (c : Config) (b : Nat) (hb : b < W64) :
    SegWF c (freshSeg c b) := by
  refine ⟨rfl, le_refl _, hb, ?_, ?_, ?_, ?_, rfl, rfl, rfl, fun _ => rfl, ?_⟩
  · show b - b ≤ W32; omega
  · show (newIndex [] c.MaxIndexBytes).size = (b - b) * entWidth
    show 0 = (b - b) * entWidth
    rw [Nat.sub_self, Nat.zero_mul]
  · show (padTrunc c.MaxIndexBytes []).length = c.MaxIndexBytes
    exact padTrunc_length _ _
  · show (0 : Nat) ≤ c.MaxIndexBytes; omega
  · intro k hk
    exact absurd hk (by show ¬ (k < b - b); omega)

theorem newSegment_fresh (fs : FS) (b : Nat) (c : Config)
    (hs : alGet fs.stores b = none) (hi : alGet fs.indexes b = none) :
    newSegment fs b c = (freshSeg c b,
      { fs with stores := fs.stores ++ [(b, [])],
                indexes := fs.indexes ++ [(b, padTrunc c.MaxIndexBytes [])] })
    := by
  unfold newSegment
  rw [hs]
  dsimp only [Option.getD]
  rw [alSet_absent _ _ _ hs]
  rw [show alGet fs.indexes b = none from hi]
  dsimp only [Option.getD]
  rw [alSet_absent _ _ _ hi]
  rfl

/-! ## Log-level invariants -/

/-- Log structural invariant: well-formed segments, ordered disjoint
ranges, strictly increasing bases, and the active pointer aliasing the
last segment. -/
structure LogWF (c : Config) (l : Log) : Prop where
  cfgEq : l.config = c
  ne : l.segments ≠ []
  segs : ∀ s ∈ l.segments, SegWF c s
  ordered : l.segments.Pairwise (fun a b => a.nextOffset ≤ b.baseOffset)
  strictB : l.segments.Pairwise (fun a b => a.baseOffset < b.baseOffset)
  activeLast : l.active = l.segments.getLast?

/-- Log + directory invariant: the directory exists and holds exactly
one store and one index file per segment, keyed by base offset in
segment order. -/
structure StWF (c : Config) (l : Log) (fs : FS) : Prop where
  logWF : LogWF c l
  dir : fs.dirExists = true
  storeKeys : fs.stores.map Prod.fst = l.segments.map Segment.baseOffset
  indexKeys : fs.indexes.map Prod.fst = l.segments.map Segment.baseOffset

/-- The next offset the log will assign: `active.nextOffset` (0 when the
segment list is empty, which `Append` rejects by panicking). -/
def lastNext (l : Log) : Nat :=
  match l.segments.getLast? with
  | none => 0
  | some s => s.nextOffset

/-- The bytes one `Append` adds to the active store file: the 8-byte
length prefix plus the marshaled record (8 offset bytes + payload). -/
def recBytes (r : Record) : Nat := 16 + r.Value.length

/-- A maxed well-formed segment holds at least one record (a fresh
segment under a well-formed configuration is never maxed). -/
theorem maxed_nonempty (c : Config) (s : Segment) (hwf : SegWF c s)
    (hc : ConfWF c) (hm : s.IsMaxed = true) :
    s.baseOffset < s.nextOffset := by
  have hb := hwf.baseLe
  rcases Nat.lt_or_ge s.baseOffset s.nextOffset with h | h
  · exact h
  have hcnt : s.nextOffset = s.baseOffset := by omega
  have hsz : s.index.size = 0 := by
    rw [hwf.sizeEq, hcnt, Nat.sub_self, Nat.zero_mul]
  have hst : s.store.data = [] := hwf.storeCnt hcnt
  have hstsz : s.store.size = 0 := by rw [hwf.storeSz, hst]; rfl
  unfold Segment.IsMaxed Index.isMaxed at hm
  simp only [Bool.or_eq_true, decide_eq_true_eq] at hm
  have h12 := hc.idx12
  have h1 := hc.store1
  have hml := hwf.mmapLen
  have hE := entWidth_pos
  rw [hwf.cfg] at hm
  rcases hm with (hm | hm) | hm
  · omega
  · omega
  · omega

/-! ## Helpers about the segment scan of `Log.Read` -/

theorem segments_decomp (l : Log) (act : Segment)
    (hact : l.segments.getLast? = some act) :
    l.segments.dropLast ++ [act] = l.segments :=
  List.dropLast_append_getLast? act (Option.mem_def.mpr hact)

theorem getLast?_mem' {α : Type} (xs : List α) (a : α)
    (h : xs.getLast? = some a) : a ∈ xs := by
  have h2 := List.dropLast_append_getLast? a (Option.mem_def.mpr h)
  rw [← h2]
  simp

theorem pairwise_with_last {α : Type} {R : α → α → Prop} (xs : List α)
    (a : α) (h : (xs ++ [a]).Pairwise R) : ∀ s ∈ xs, R s a := by
  rw [List.pairwise_append] at h
  exact fun s hs => h.2.2 s hs a (by simp)

theorem pairwise_snoc {α : Type} {R : α → α → Prop} (xs : List α)
    (a : α) (h1 : xs.Pairwise R) (h2 : ∀ s ∈ xs, R s a) :
    (xs ++ [a]).Pairwise R := by
  rw [List.pairwise_append]
  exact ⟨h1, List.pairwise_singleton R a, fun s hs b hb => by
    rw [List.mem_singleton] at hb
    rw [hb]
    exact h2 s hs⟩

theorem find?_none_of_below (off : Nat) (xs : List Segment) (bound : Nat)
    (hb : bound ≤ off) (hall : ∀ s ∈ xs, s.nextOffset ≤ bound) :
    xs.find? (fun s => decide (s.baseOffset ≤ off)
      && decide (off < s.nextOffset)) = none := by
  rw [List.find?_eq_none]
  intro s hs
  simp only [Bool.and_eq_true, decide_eq_true_eq, not_and]
  intro _
  have := hall s hs
  omega

theorem Log.Read_ok_elim (l : Log) (off : Nat) (r0 : Record)
    (h : l.Read off = .ok r0) :
    ∃ s, l.segments.find? (fun s => decide (s.baseOffset ≤ off)
      && decide (off < s.nextOffset)) = some s ∧ s.Read off = some r0 := by
  unfold Log.Read at h
  cases hf : l.segments.find? (fun s => decide (s.baseOffset ≤ off)
      && decide (off < s.nextOffset)) with
  | none => rw [hf] at h; exact absurd h (by simp)
  | some s =>
    rw [hf] at h
    dsimp only at h
    have hp := List.find?_some hf
    simp only [Bool.and_eq_true, decide_eq_true_eq] at hp
    rw [if_neg (by omega)] at h
    refine ⟨s, rfl, ?_⟩
    cases hs : s.Read off with
    | none => rw [hs] at h; exact absurd h (by simp)
    | some r =>
      rw [hs] at h
      dsimp only at h
      injection h with h2
      rw [h2]

theorem Log.Read_found (l : Log) (off : Nat) (s : Segment) (r0 : Record)
    (hf : l.segments.find? (fun s => decide (s.baseOffset ≤ off)
      && decide (off < s.nextOffset)) = some s)
    (hs : s.Read off = some r0) :
    l.Read off = .ok r0 := by
  unfold Log.Read
  rw [hf]
  dsimp only
  have hp := List.find?_some hf
  simp only [Bool.and_eq_true, decide_eq_true_eq] at hp
  rw [if_neg (by omega), hs]

theorem notMaxed_room (c : Config) (s : Segment) (hwf : SegWF c s)
    (hm : s.IsMaxed = false) :
    s.index.size + entWidth ≤ c.MaxIndexBytes := by
  unfold Segment.IsMaxed Index.isMaxed at hm
  simp only [Bool.or_eq_false_iff, decide_eq_false_iff_not, not_le,
    not_lt] at hm
  have hml := hwf.mmapLen
  omega

theorem segAppended_store_len (s : Segment) (r : Record) :
    (segAppended s r).store.data.length
      = s.store.data.length + recBytes r := by
  show (s.store.data ++ (be 8 (marshal { r with Offset := s.nextOffset }).length
    ++ marshal { r with Offset := s.nextOffset })).length = _
  simp [be_length, marshal_length, recBytes]
  omega

theorem segAppended_base (s : Segment) (r : Record) :
    (segAppended s r).baseOffset = s.baseOffset := rfl

theorem segAppended_next (s : Segment) (r : Record) :
    (segAppended s r).nextOffset = (s.nextOffset + 1) % W64 := rfl

/-- `Log.Append` when the active segment still has room: no rotation,
the record goes to the last segment. -/
theorem Log.Append_noRot (l : Log) (fs : FS) (r : Record) (act : Segment)
    (hact : l.segments.getLast? = some act)
    (hmax : act.IsMaxed = false) :
    l.Append r fs = ((act.Append r).1,
      { l with segments := l.segments.dropLast ++ [(act.Append r).2],
               active := some (act.Append r).2 }, fs) := by
  unfold Log.Append
  rw [show l.highestOffset = some (if act.nextOffset = 0 then 0
      else act.nextOffset - 1) by
    unfold Log.highestOffset; rw [hact]; dsimp only; split <;> simp_all]
  dsimp only
  rw [hact]
  dsimp only
  rw [hmax, if_neg Bool.false_ne_true]
  dsimp only
  rw [hact]

/-- `Log.Append` when the active segment is maxed: rotate to a fresh
segment at `nextOffset` and append there.  Requires the invariant facts
that make the rotation target fresh and nonzero. -/
theorem Log.Append_rot (c : Config) (l : Log) (fs : FS) (r : Record)
    (hc : ConfWF c) (hwf : StWF c l fs) (act : Segment)
    (hact : l.segments.getLast? = some act)
    (hmax : act.IsMaxed = true) :
    l.Append r fs
      = (((freshSeg c act.nextOffset).Append r).1,
      { l with
        segments := l.segments ++ [((freshSeg c act.nextOffset).Append r).2],
        active := some ((freshSeg c act.nextOffset).Append r).2 },
      { fs with
        stores := fs.stores ++ [(act.nextOffset, [])],
        indexes := fs.indexes
          ++ [(act.nextOffset, padTrunc c.MaxIndexBytes [])] }) := by
  have hmemact : act ∈ l.segments := getLast?_mem' _ _ hact
  have hS := hwf.logWF.segs act hmemact
  have hne0 : act.baseOffset < act.nextOffset :=
    maxed_nonempty c act hS hc hmax
  have hlt := hS.nextLt
  -- the rotation target offset
  have hharg : (if act.nextOffset = 0 then 0 else act.nextOffset - 1) + 1
      = act.nextOffset := by
    rw [if_neg (by omega)]
    omega
  -- the rotation target is a fresh base offset
  have hbases : ∀ s ∈ l.segments, s.baseOffset < act.nextOffset := by
    intro s hs
    have hdec := segments_decomp l act hact
    rw [← hdec] at hs
    rcases List.mem_append.mp hs with hs | hs
    · have hord := pairwise_with_last _ _
        (by rw [hdec]; exact hwf.logWF.ordered) s hs
      have hSs := hwf.logWF.segs s (by rw [← hdec]; simp [List.mem_append, hs])
      have := hSs.baseLe
      omega
    · rw [List.mem_singleton] at hs
      rw [hs]
      exact hne0
  have hsfresh : alGet fs.stores act.nextOffset = none := by
    apply alGet_eq_none
    rw [hwf.storeKeys]
    intro hmem
    rcases List.mem_map.mp hmem with ⟨s, hs, hbase⟩
    have := hbases s hs
    omega
  have hifresh : alGet fs.indexes act.nextOffset = none := by
    apply alGet_eq_none
    rw [hwf.indexKeys]
    intro hmem
    rcases List.mem_map.mp hmem with ⟨s, hs, hbase⟩
    have := hbases s hs
    omega
  unfold Log.Append
  rw [show l.highestOffset = some (if act.nextOffset = 0 then 0
      else act.nextOffset - 1) by
    unfold Log.highestOffset; rw [hact]; dsimp only; split <;> simp_all]
  dsimp only
  rw [hact]
  dsimp only
  rw [hmax, if_pos rfl, hharg, Nat.mod_eq_of_lt hlt]
  unfold Log.newSegment newSegmentF
  rw [hwf.logWF.cfgEq, newSegment_fresh fs _ c hsfresh hifresh]
  dsimp only
  rw [List.getLast?_concat, List.dropLast_concat]

/-- One successful `Log.Append` step on a well-formed log: the returned
offset is `active.nextOffset`, the invariant is preserved, the assigned
offsets advance by one, previously readable records stay readable
unchanged, and the new record is immediately readable. `M` bounds every
store file's size before the step (the budget that keeps store
positions inside `uint64`). -/
theorem Log.Append_step (c : Config) (l : Log) (fs : FS) (r : Record)
    (M : Nat) (hc : ConfWF c) (hwf : StWF c l fs)
    (hnw : lastNext l + 1 < W64)
    (hM : ∀ s ∈ l.segments, s.store.data.length ≤ M)
    (hMW : M + recBytes r < W64) :
    (l.Append r fs).1 = .ok (lastNext l) ∧
    StWF c (l.Append r fs).2.1 (l.Append r fs).2.2 ∧
    lastNext (l.Append r fs).2.1 = lastNext l + 1 ∧
    (∀ o r0, l.Read o = .ok r0 → (l.Append r fs).2.1.Read o = .ok r0) ∧
    ((l.Append r fs).2.1.Read (lastNext l)
      = .ok { Value := r.Value, Offset := lastNext l }) ∧
    (∀ t ∈ (l.Append r fs).2.1.segments,
      t.store.data.length ≤ M + recBytes r) := by
  obtain ⟨act, hact⟩ : ∃ a, l.segments.getLast? = some a := by
    cases hg : l.segments.getLast? with
    | none => exact absurd (List.getLast?_eq_none_iff.mp hg) hwf.logWF.ne
    | some a => exact ⟨a, rfl⟩
  have hmem : act ∈ l.segments := getLast?_mem' _ _ hact
  have hS := hwf.logWF.segs act hmem
  have hlast : lastNext l = act.nextOffset := by unfold lastNext; rw [hact]
  have hdec := segments_decomp l act hact
  have hinitnext : ∀ s ∈ l.segments.dropLast, s.nextOffset ≤ act.baseOffset :=
    pairwise_with_last _ _ (by rw [hdec]; exact hwf.logWF.ordered)
  have hinitbase : ∀ s ∈ l.segments.dropLast, s.baseOffset < act.baseOffset :=
    pairwise_with_last _ _ (by rw [hdec]; exact hwf.logWF.strictB)
  have hmemInit : ∀ s ∈ l.segments.dropLast, s ∈ l.segments := by
    intro s hs
    rw [← hdec]
    exact List.mem_append.mpr (Or.inl hs)
  have hallnext : ∀ s ∈ l.segments, s.nextOffset ≤ act.nextOffset := by
    intro s hs
    rw [← hdec] at hs
    rcases List.mem_append.mp hs with hs | hs
    · have h1 := hinitnext s hs
      have h2 := hS.baseLe
      omega
    · rw [List.mem_singleton] at hs
      rw [hs]
  rw [hlast] at hnw ⊢
  have hvw : 8 + r.Value.length < W64 := by
    unfold recBytes at hMW; omega
  by_cases hmax : act.IsMaxed = true
  · -- rotation
    have hne0 : act.baseOffset < act.nextOffset := maxed_nonempty c act hS hc hmax
    have hnsWF : SegWF c (freshSeg c act.nextOffset) :=
      freshSeg_WF c _ hS.nextLt
    have hroom : (freshSeg c act.nextOffset).index.size + entWidth
        ≤ c.MaxIndexBytes := by
      show 0 + entWidth ≤ _
      have := hc.idx12
      omega
    have hnw2 : (freshSeg c act.nextOffset).nextOffset + 1 < W64 := hnw
    rw [Log.Append_rot c l fs r hc hwf act hact hmax,
      Segment.Append_ok c _ r hnsWF hroom]
    dsimp only
    have hsl : (freshSeg c act.nextOffset).store.data.length
        + (8 + r.Value.length) < W64 := by
      show 0 + (8 + r.Value.length) < W64
      omega
    have hfr := segAppended_Read c (freshSeg c act.nextOffset) r hnsWF hroom
      hc hnw2 hsl
    have hnext' : (segAppended (freshSeg c act.nextOffset) r).nextOffset
        = act.nextOffset + 1 := by
      rw [segAppended_next]
      show (act.nextOffset + 1) % W64 = _
      exact Nat.mod_eq_of_lt hnw
    have hbase' : (segAppended (freshSeg c act.nextOffset) r).baseOffset
        = act.nextOffset := rfl
    refine ⟨rfl, ⟨⟨hwf.logWF.cfgEq, by simp, ?_, ?_, ?_, ?_⟩, hwf.dir,
      ?_, ?_⟩, ?_, ?_, ?_, ?_⟩
    · -- segs
      intro s hs
      rcases List.mem_append.mp hs with hs | hs
      · exact hwf.logWF.segs s hs
      · rw [List.mem_singleton] at hs
        rw [hs]
        exact segAppended_WF c _ r hnsWF hroom hc hnw2
    · -- ordered
      refine pairwise_snoc _ _ hwf.logWF.ordered ?_
      intro s hs
      show s.nextOffset ≤ (segAppended (freshSeg c act.nextOffset) r).baseOffset
      rw [hbase']
      exact hallnext s hs
    · -- strict bases
      refine pairwise_snoc _ _ hwf.logWF.strictB ?_
      intro s hs
      show s.baseOffset < (segAppended (freshSeg c act.nextOffset) r).baseOffset
      rw [hbase']
      rw [← hdec] at hs
      rcases List.mem_append.mp hs with hs | hs
      · have := hinitbase s hs
        omega
      · rw [List.mem_singleton] at hs
        rw [hs]
        exact hne0
    · -- active pointer
      show some _ = _
      rw [List.getLast?_concat]
    · -- store file keys
      show (fs.stores ++ [(act.nextOffset, [])]).map Prod.fst
        = (l.segments ++ [segAppended (freshSeg c act.nextOffset) r]).map
            Segment.baseOffset
      rw [List.map_append, List.map_append, hwf.storeKeys]
      rfl
    · -- index file keys
      show (fs.indexes ++ [(act.nextOffset, padTrunc c.MaxIndexBytes [])]).map
          Prod.fst
        = (l.segments ++ [segAppended (freshSeg c act.nextOffset) r]).map
            Segment.baseOffset
      rw [List.map_append, List.map_append, hwf.indexKeys]
      rfl
    · -- lastNext advanced
      show lastNext _ = act.nextOffset + 1
      unfold lastNext
      rw [show ({ l with
          segments := l.segments
            ++ [segAppended (freshSeg c act.nextOffset) r],
          active := some (segAppended (freshSeg c act.nextOffset) r)
            } : Log).segments.getLast?
          = some (segAppended (freshSeg c act.nextOffset) r) from
        List.getLast?_concat _]
      dsimp only
      exact hnext'
    · -- reads preserved
      intro o r0 h
      obtain ⟨s, hf, hsr⟩ := Log.Read_ok_elim l o r0 h
      refine Log.Read_found _ o s r0 ?_ hsr
      show List.find? _ (l.segments ++ _) = some s
      rw [List.find?_append, hf]
      rfl
    · -- the fresh record is readable
      refine Log.Read_found _ _ (segAppended (freshSeg c act.nextOffset) r)
        _ ?_ hfr
      show List.find? _ (l.segments ++ _) = some _
      rw [List.find?_append,
        find?_none_of_below act.nextOffset _ act.nextOffset (le_refl _)
          hallnext,
        List.find?_singleton, if_pos]
      · rfl
      · simp only [Bool.and_eq_true, decide_eq_true_eq]
        constructor
        · rw [hbase']
        · rw [hnext']
          omega
    · -- byte budget
      intro t ht
      rcases List.mem_append.mp ht with ht | ht
      · have := hM t ht
        omega
      · rw [List.mem_singleton] at ht
        rw [ht, segAppended_store_len]
        show 0 + recBytes r ≤ M + recBytes r
        omega
  · -- no rotation
    have hmax' : act.IsMaxed = false := by
      revert hmax
      cases act.IsMaxed <;> simp
    have hroom := notMaxed_room c act hS hmax'
    have hnw2 : act.nextOffset + 1 < W64 := hnw
    rw [Log.Append_noRot l fs r act hact hmax',
      Segment.Append_ok c act r hS hroom]
    dsimp only
    have hsl : act.store.data.length + (8 + r.Value.length) < W64 := by
      have := hM act hmem
      unfold recBytes at hMW
      omega
    have hfr := segAppended_Read c act r hS hroom hc hnw2 hsl
    have hnext' : (segAppended act r).nextOffset = act.nextOffset + 1 := by
      rw [segAppended_next]
      exact Nat.mod_eq_of_lt hnw
    have hbase' : (segAppended act r).baseOffset = act.baseOffset := rfl
    refine ⟨rfl, ⟨⟨hwf.logWF.cfgEq, by simp, ?_, ?_, ?_, ?_⟩, hwf.dir,
      ?_, ?_⟩, ?_, ?_, ?_, ?_⟩
    · -- segs
      intro s hs
      rcases List.mem_append.mp hs with hs | hs
      · exact hwf.logWF.segs s (hmemInit s hs)
      · rw [List.mem_singleton] at hs
        rw [hs]
        exact segAppended_WF c act r hS hroom hc hnw2
    · -- ordered
      refine pairwise_snoc _ _ ?_ ?_
      · have h2 := hwf.logWF.ordered
        rw [← hdec, List.pairwise_append] at h2
        exact h2.1
      · intro s hs
        show s.nextOffset ≤ (segAppended act r).baseOffset
        rw [hbase']
        exact hinitnext s hs
    · -- strict bases
      refine pairwise_snoc _ _ ?_ ?_
      · have h2 := hwf.logWF.strictB
        rw [← hdec, List.pairwise_append] at h2
        exact h2.1
      · intro s hs
        show s.baseOffset < (segAppended act r).baseOffset
        rw [hbase']
        exact hinitbase s hs
    · -- active pointer
      show some _ = _
      rw [List.getLast?_concat]
    · -- store file keys
      show fs.stores.map Prod.fst
        = (l.segments.dropLast ++ [segAppended act r]).map Segment.baseOffset
      conv_lhs => rw [hwf.storeKeys, ← hdec]
      rw [List.map_append, List.map_append]
      rfl
    · -- index file keys
      show fs.indexes.map Prod.fst
        = (l.segments.dropLast ++ [segAppended act r]).map Segment.baseOffset
      conv_lhs => rw [hwf.indexKeys, ← hdec]
      rw [List.map_append, List.map_append]
      rfl
    · -- lastNext advanced
      show lastNext _ = act.nextOffset + 1
      unfold lastNext
      rw [show ({ l with
          segments := l.segments.dropLast ++ [segAppended act r],
          active := some (segAppended act r) } : Log).segments.getLast?
          = some (segAppended act r) from List.getLast?_concat _]
      dsimp only
      exact hnext'
    · -- reads preserved
      intro o r0 h
      obtain ⟨s, hf, hsr⟩ := Log.Read_ok_elim l o r0 h
      rw [← hdec, List.find?_append] at hf
      cases hfi : List.find? (fun s => decide (s.baseOffset ≤ o)
          && decide (o < s.nextOffset)) l.segments.dropLast with
      | some s1 =>
        rw [hfi] at hf
        have hs1 : s1 = s := by
          simp only [Option.or] at hf
          injection hf
        refine Log.Read_found _ o s r0 ?_ hsr
        show List.find? _ (l.segments.dropLast ++ _) = some s
        rw [List.find?_append, hfi, ← hs1]
        rfl
      | none =>
        rw [hfi] at hf
        simp only [Option.or, List.find?_singleton] at hf
        have hacts : act = s := by
          by_cases hpa : (decide (act.baseOffset ≤ o)
              && decide (o < act.nextOffset)) = true
          · rw [if_pos hpa] at hf; injection hf
          · rw [if_neg hpa] at hf; exact absurd hf (by simp)
        have hpa : act.baseOffset ≤ o ∧ o < act.nextOffset := by
          by_cases hpa : (decide (act.baseOffset ≤ o)
              && decide (o < act.nextOffset)) = true
          · simpa using hpa
          · rw [if_neg hpa] at hf; exact absurd hf (by simp)
        refine Log.Read_found _ o (segAppended act r) r0 ?_ ?_
        · show List.find? _ (l.segments.dropLast ++ _) = some _
          rw [List.find?_append, hfi, List.find?_singleton, if_pos]
          · rfl
          · simp only [Bool.and_eq_true, decide_eq_true_eq]
            rw [hbase', hnext']
            omega
        · have hsr2 : act.Read o = some r0 := by rw [hacts]; exact hsr
          exact segAppended_Read_pres c act r r0 o hS hpa.1 hpa.2 hsr2
    · -- the fresh record is readable
      refine Log.Read_found _ _ (segAppended act r) _ ?_ hfr
      show List.find? _ (l.segments.dropLast ++ _) = some _
      rw [List.find?_append,
        find?_none_of_below act.nextOffset _ act.baseOffset hS.baseLe
          hinitnext,
        List.find?_singleton, if_pos]
      · rfl
      · simp only [Bool.and_eq_true, decide_eq_true_eq]
        rw [hbase', hnext']
        have := hS.baseLe
        omega
    · -- byte budget
      intro t ht
      rcases List.mem_append.mp ht with ht | ht
      · have := hM t (hmemInit t ht)
        omega
      · rw [List.mem_singleton] at ht
        rw [ht, segAppended_store_len]
        have := hM act hmem
        omega

/-! ## Running a sequence of appends -/

/-- Run a sequence of `Log.Append` calls, collecting each returned
offset (or error). -/
def appendRun : Log → FS → List Record → Log × FS × List (Except Unit Nat)
  | l, fs, [] => (l, fs, [])
  | l, fs, r :: rs =>
    let ap := l.Append r fs
    let rest := appendRun ap.2.1 ap.2.2 rs
    (rest.1, rest.2.1, ap.1 :: rest.2.2)

/-- Total store bytes consumed by a sequence of appends. -/
def valsBytes (rs : List Record) : Nat := (rs.map recBytes).sum

/-- Defaulting applied by `NewLog`. -/
def withDefaults (c : Config) : Config :=
  { c with
    MaxStoreBytes := if c.MaxStoreBytes = 0 then 1024 else c.MaxStoreBytes,
    MaxIndexBytes := if c.MaxIndexBytes = 0 then 1024 else c.MaxIndexBytes }

/-- `NewLog` on an empty directory: one fresh segment at
`InitialOffset`, one empty store file and one pre-truncated index
file. -/
theorem NewLog_empty (c : Config) :
    NewLog fsEmpty c = .ok
      ({ config := withDefaults c,
         segments := [freshSeg (withDefaults c) c.InitialOffset],
         active := some (freshSeg (withDefaults c) c.InitialOffset) },
       { dirExists := true,
         stores := [(c.InitialOffset, [])],
         indexes := [(c.InitialOffset,
           padTrunc (withDefaults c).MaxIndexBytes [])] }) := rfl

/-- Create a log on an empty directory, then run a sequence of appends.
(`NewLog` on an empty existing directory cannot fail — see
`NewLog_empty` — so the error branch below is dead.) -/
def runLog (c : Config) (rs : List Record) :
    Log × FS × List (Except Unit Nat) :=
  match NewLog fsEmpty c with
  | .error _ => ({ config := c, segments := [], active := none }, fsEmpty, [])
  | .ok (l0, fs0) => appendRun l0 fs0 rs

theorem StWF_init (c : Config) (hc : ConfWF (withDefaults c)) :
    StWF (withDefaults c)
      { config := withDefaults c,
        segments := [freshSeg (withDefaults c) c.InitialOffset],
        active := some (freshSeg (withDefaults c) c.InitialOffset) }
      { dirExists := true,
        stores := [(c.InitialOffset, [])],
        indexes := [(c.InitialOffset,
          padTrunc (withDefaults c).MaxIndexBytes [])] } := by
  refine ⟨⟨rfl, by simp, ?_, ?_, ?_, rfl⟩, rfl, rfl, rfl⟩
  · intro s hs
    rw [List.mem_singleton] at hs
    rw [hs]
    exact freshSeg_WF _ _ hc.initLt
  · exact List.pairwise_singleton _ _
  · exact List.pairwise_singleton _ _

/-- Specification of a run of appends on a well-formed state: every
append succeeds, the offsets are consecutive, all earlier reads are
preserved, and every appended record is readable in the final state. -/
theorem appendRun_spec (c : Config) (hc : ConfWF c) (rs : List Record) :
    ∀ (l : Log) (fs : FS) (M : Nat), StWF c l fs →
    lastNext l + rs.length < W64 →
    (∀ s ∈ l.segments, s.store.data.length ≤ M) →
    M + valsBytes rs < W64 →
    StWF c (appendRun l fs rs).1 (appendRun l fs rs).2.1 ∧
    lastNext (appendRun l fs rs).1 = lastNext l + rs.length ∧
    (appendRun l fs rs).2.2
      = (List.range rs.length).map (fun i => .ok (lastNext l + i)) ∧
    (∀ o r0, l.Read o = .ok r0 → (appendRun l fs rs).1.Read o = .ok r0) ∧
    (∀ i (hi : i < rs.length), (appendRun l fs rs).1.Read (lastNext l + i)
      = .ok { Value := (rs.get ⟨i, hi⟩).Value, Offset := lastNext l + i }) ∧
    (∀ s ∈ (appendRun l fs rs).1.segments,
      s.store.data.length ≤ M + valsBytes rs) := by
  induction rs with
  | nil =>
    intro l fs M hwf hnw hM hMW
    refine ⟨hwf, by simp [appendRun], by simp [appendRun], ?_, ?_, ?_⟩
    · intro o r0 h; exact h
    · intro i hi; simp at hi
    · intro s hs
      have := hM s hs
      have h0 : valsBytes [] = 0 := rfl
      omega
  | cons r rs ih =>
    intro l fs M hwf hnw hM hMW
    have hvb : valsBytes (r :: rs) = recBytes r + valsBytes rs := by
      unfold valsBytes
      simp [List.map_cons, List.sum_cons]
    have hstep := Log.Append_step c l fs r M hc hwf
      (by simp at hnw; omega) hM (by rw [hvb] at hMW; omega)
    obtain ⟨hres, hwf1, hln1, hpres1, hfr1, hbud1⟩ := hstep
    have hih := ih (l.Append r fs).2.1 (l.Append r fs).2.2
      (M + recBytes r) hwf1
      (by rw [hln1]; simp at hnw ⊢; omega) hbud1
      (by rw [hvb] at hMW; omega)
    obtain ⟨ihwf, ihln, ihres, ihpres, ihread, ihbud⟩ := hih
    have hrunEq : appendRun l fs (r :: rs)
        = ((appendRun (l.Append r fs).2.1 (l.Append r fs).2.2 rs).1,
           (appendRun (l.Append r fs).2.1 (l.Append r fs).2.2 rs).2.1,
           (l.Append r fs).1
             :: (appendRun (l.Append r fs).2.1 (l.Append r fs).2.2 rs).2.2)
        := rfl
    rw [hrunEq]
    refine ⟨ihwf, ?_, ?_, ?_, ?_, ?_⟩
    · rw [ihln, hln1]
      simp
      omega
    · show (l.Append r fs).1 :: _ = _
      rw [hres, ihres, hln1]
      simp only [List.length_cons]
      rw [List.range_succ_eq_map, List.map_cons, List.map_map]
      congr 1
      apply List.map_congr_left
      intro i hi
      show Except.ok (lastNext l + 1 + i) = Except.ok (lastNext l + (i + 1))
      congr 1
      omega
    · intro o r0 h
      exact ihpres o r0 (hpres1 o r0 h)
    · intro i hi
      cases i with
      | zero => exact ihpres _ _ hfr1
      | succ j =>
        have hj : j < rs.length := by simpa using hi
        have h2 := ihread j hj
        rw [hln1] at h2
        rw [show lastNext l + (j + 1) = lastNext l + 1 + j by omega]
        exact h2
    · intro s hs
      have := ihbud s hs
      rw [hvb]
      omega

deriving instance DecidableEq for Except

/-! ## Claim C2 — offsets assigned by `Append` -/

theorem runLog_spec (c : Config) (rs : List Record)
    (hc : ConfWF (withDefaults c))
    (hnw : c.InitialOffset + rs.length < W64)
    (hbytes : valsBytes rs < W64) :
    StWF (withDefaults c) (runLog c rs).1 (runLog c rs).2.1 ∧
    lastNext (runLog c rs).1 = c.InitialOffset + rs.length ∧
    (runLog c rs).2.2
      = (List.range rs.length).map (fun i => .ok (c.InitialOffset + i)) ∧
    (∀ i (hi : i < rs.length), (runLog c rs).1.Read (c.InitialOffset + i)
      = .ok { Value := (rs.get ⟨i, hi⟩).Value,
              Offset := c.InitialOffset + i }) ∧
    (∀ s ∈ (runLog c rs).1.segments,
      s.store.data.length ≤ valsBytes rs) := by
  have h0 := StWF_init c hc
  have hrl : runLog c rs = appendRun
      { config := withDefaults c,
        segments := [freshSeg (withDefaults c) c.InitialOffset],
        active := some (freshSeg (withDefaults c) c.InitialOffset) }
      { dirExists := true,
        stores := [(c.InitialOffset, [])],
        indexes := [(c.InitialOffset,
          padTrunc (withDefaults c).MaxIndexBytes [])] } rs := by
    unfold runLog
    rw [NewLog_empty]
  have hln0 : lastNext
      { config := withDefaults c,
        segments := [freshSeg (withDefaults c) c.InitialOffset],
        active := some (freshSeg (withDefaults c) c.InitialOffset) }
      = c.InitialOffset := rfl
  have hsp := appendRun_spec (withDefaults c) hc rs _ _ 0 h0
    (by rw [hln0]; exact hnw)
    (by intro s hs
        rw [List.mem_singleton] at hs
        rw [hs]
        exact le_refl 0)
    (by omega)
  rw [hln0] at hsp
  rw [hrl]
  obtain ⟨h1, h2, h3, _, h5, h6⟩ := hsp
  refine ⟨h1, h2, h3, h5, ?_⟩
  intro s hs
  have := h6 s hs
  omega

/-- C2 (corrected) — the claim as stated fails: with
`InitialOffset = 2^64 − 1` (a valid `uint64` configuration) the first
`Append` succeeds returning `2^64 − 1`, `nextOffset` wraps to 0 in
`uint64` arithmetic, and the second successful `Append` returns 0
instead of `InitialOffset + 1 = 2^64`. -/
theorem c2_counterexample :
    (runLog { MaxStoreBytes := 1024, MaxIndexBytes := 24,
              InitialOffset := 18446744073709551615 }
      [{ Value := [1], Offset := 0 }, { Value := [2], Offset := 0 }]).2.2
      = [.ok 18446744073709551615, .ok 0]
    ∧ (0 : Nat) ≠ 18446744073709551615 + 1 := by
  constructor
  · rfl
  · decide

/-- C2 (amended): for every configuration whose caps admit the index
format (at least one 12-byte entry; at most `2^32` entries per segment)
and whose offsets stay below `2^64` — `InitialOffset + number of appends
< 2^64`, total appended bytes below `2^64` — the offsets returned by
successive `Append` calls on an originally empty log are exactly
`InitialOffset, InitialOffset+1, …`, with no gaps, repeats, or
failures. -/
theorem c2_amended (c : Config) (rs : List Record)
    (hc : ConfWF (withDefaults c))
    (hnw : c.InitialOffset + rs.length < W64)
    (hbytes : valsBytes rs < W64) :
    (runLog c rs).2.2
      = (List.range rs.length).map (fun i => .ok (c.InitialOffset + i)) :=
  (runLog_spec c rs hc hnw hbytes).2.2.1

theorem c2_witness :
    (runLog { MaxStoreBytes := 1024, MaxIndexBytes := 24,
              InitialOffset := 5 }
      [{ Value := [1], Offset := 0 }, { Value := [2], Offset := 0 }]).2.2
      = [.ok 5, .ok 6] := by
  have h := c2_amended
    { MaxStoreBytes := 1024, MaxIndexBytes := 24, InitialOffset := 5 }
    [{ Value := [1], Offset := 0 }, { Value := [2], Offset := 0 }]
    ⟨by decide, by decide, by decide, by decide⟩ (by decide) (by decide)
  rw [h]
  rfl

/-! ## Claim C1 — append-then-read round trip -/

/-- C1 (corrected) — the claim as stated fails: with
`InitialOffset = 2^64 − 1`, `Append` succeeds returning `2^64 − 1`, but
the segment's `nextOffset` wraps to 0, so the range check
`baseOffset ≤ off < nextOffset` of `Log.Read` is empty and the
just-appended record is immediately unreadable:
`Read(2^64−1)` fails with `ErrOffsetOutOfRange`. -/
theorem c1_counterexample :
    (runLog { MaxStoreBytes := 1024, MaxIndexBytes := 24,
              InitialOffset := 18446744073709551615 }
      [{ Value := [1], Offset := 0 }]).2.2 = [.ok 18446744073709551615]
    ∧ (runLog { MaxStoreBytes := 1024, MaxIndexBytes := 24,
                InitialOffset := 18446744073709551615 }
        [{ Value := [1], Offset := 0 }]).1.Read 18446744073709551615
      = .error (.outOfRange 18446744073709551615) := by
  constructor <;> rfl

/-- C1 (amended): under the same no-overflow provisos as C2 —
`InitialOffset + number of appends < 2^64`, the index cap within the
u32 relative-offset format, total appended bytes below `2^64` — every
record successfully appended at offset `o` is readable at `o` in the
final log (hence after every later append) with exactly the appended
payload bytes. -/
theorem c1_amended (c : Config) (rs : List Record) (i : Nat)
    (hc : ConfWF (withDefaults c))
    (hnw : c.InitialOffset + rs.length < W64)
    (hbytes : valsBytes rs < W64)
    (hi : i < rs.length) :
    (runLog c rs).2.2[i]? = some (.ok (c.InitialOffset + i)) ∧
    (runLog c rs).1.Read (c.InitialOffset + i)
      = .ok { Value := (rs.get ⟨i, hi⟩).Value,
              Offset := c.InitialOffset + i } := by
  have h := runLog_spec c rs hc hnw hbytes
  refine ⟨?_, h.2.2.2.1 i hi⟩
  rw [h.2.2.1, List.getElem?_map, List.getElem?_range hi]
  rfl

theorem c1_witness :
    (runLog { MaxStoreBytes := 1024, MaxIndexBytes := 24,
              InitialOffset := 5 } [{ Value := [9, 8], Offset := 0 }]).2.2[0]?
      = some (.ok 5)
    ∧ (runLog { MaxStoreBytes := 1024, MaxIndexBytes := 24,
                InitialOffset := 5 }
        [{ Value := [9, 8], Offset := 0 }]).1.Read 5
      = .ok { Value := [9, 8], Offset := 5 } :=
  c1_amended { MaxStoreBytes := 1024, MaxIndexBytes := 24,
               InitialOffset := 5 } [{ Value := [9, 8], Offset := 0 }] 0
    ⟨by decide, by decide, by decide, by decide⟩ (by decide) (by decide)
    (by decide)

/-! ## Claim C5 — `Read` fails with OffsetOutOfRange exactly when no
segment's range contains the offset -/

/-- `Log.Read` fails with `ErrOffsetOutOfRange{off}` exactly when no
segment's range contains `off`. -/
theorem Log.Read_oor_iff (l : Log) (off : Nat) :
    l.Read off = .error (.outOfRange off)
      ↔ ∀ s ∈ l.segments, ¬(s.baseOffset ≤ off ∧ off < s.nextOffset) := by
  constructor
  · intro h s hs hcont
    cases hf : l.segments.find? (fun s => decide (s.baseOffset ≤ off)
        && decide (off < s.nextOffset)) with
    | none =>
      have h2 := List.find?_eq_none.mp hf s hs
      simp only [Bool.and_eq_true, decide_eq_true_eq, not_and] at h2
      exact h2 hcont.1 hcont.2
    | some t =>
      unfold Log.Read at h
      rw [hf] at h
      dsimp only at h
      have hp := List.find?_some hf
      simp only [Bool.and_eq_true, decide_eq_true_eq] at hp
      rw [if_neg (by omega)] at h
      cases ht : t.Read off with
      | none => rw [ht] at h; exact absurd h (by simp)
      | some r => rw [ht] at h; exact absurd h (by simp)
  · intro hall
    unfold Log.Read
    have hf : l.segments.find? (fun s => decide (s.baseOffset ≤ off)
        && decide (off < s.nextOffset)) = none := by
      rw [List.find?_eq_none]
      intro s hs
      simp only [Bool.and_eq_true, decide_eq_true_eq, not_and]
      intro h1 h2
      exact hall s hs ⟨h1, h2⟩
    rw [hf]

set_option maxRecDepth 100000 in
/-- C5 (confirmed): `Log.Read(off)` fails with
`ErrOffsetOutOfRange{off}` exactly when no segment's
`[baseOffset, nextOffset)` range contains `off`; and the S4 scenario:
producing `"hello world"` into an empty default-config log returns
offset 0, and `Read(1)` fails with `OffsetOutOfRange(1)`. -/
theorem c5_claim :
    (∀ (l : Log) (off : Nat),
      l.Read off = .error (.outOfRange off)
        ↔ ∀ s ∈ l.segments,
            ¬(s.baseOffset ≤ off ∧ off < s.nextOffset)) ∧
    (runLog { MaxStoreBytes := 0, MaxIndexBytes := 0, InitialOffset := 0 }
      [{ Value := [104, 101, 108, 108, 111, 32, 119, 111, 114, 108, 100],
         Offset := 0 }]).2.2 = [.ok 0] ∧
    (runLog { MaxStoreBytes := 0, MaxIndexBytes := 0, InitialOffset := 0 }
      [{ Value := [104, 101, 108, 108, 111, 32, 119, 111, 114, 108, 100],
         Offset := 0 }]).1.Read 1 = .error (.outOfRange 1) := by
  exact ⟨Log.Read_oor_iff, by rfl, by rfl⟩

/-! ## Claim C7 — LowestOffset / HighestOffset -/

/-- C7 (corrected) — the claim as stated fails: on a freshly created
empty log with `InitialOffset = 5` (no records ever appended),
`HighestOffset` returns `nextOffset − 1 = 4`, not 0; the code returns 0
only when `nextOffset` itself is 0. -/
theorem c7_counterexample :
    (runLog { MaxStoreBytes := 1024, MaxIndexBytes := 24,
              InitialOffset := 5 } []).1.HighestOffset = some 4
    ∧ (4 : Nat) ≠ 0 := by
  constructor
  · rfl
  · decide

/-- C7 (amended): `HighestOffset` returns `active.nextOffset − 1`
whenever `active.nextOffset ≠ 0` — including on an empty log with
`InitialOffset > 0`, where it returns `InitialOffset − 1` — and 0 only
when `active.nextOffset = 0`; `LowestOffset` returns the first
segment's `baseOffset` (on a fresh empty log, `InitialOffset`). -/
theorem c7_amended :
    (∀ (l : Log) (s : Segment), l.segments.getLast? = some s →
      l.HighestOffset
        = some (if s.nextOffset = 0 then 0 else s.nextOffset - 1)) ∧
    (∀ (l : Log) (s : Segment), l.segments.head? = some s →
      l.LowestOffset = some s.baseOffset) ∧
    (∀ c : Config, (runLog c []).1.HighestOffset
      = some (if c.InitialOffset = 0 then 0 else c.InitialOffset - 1)) ∧
    (∀ c : Config, (runLog c []).1.LowestOffset = some c.InitialOffset) := by
  have hh : ∀ (l : Log) (s : Segment), l.segments.getLast? = some s →
      l.HighestOffset
        = some (if s.nextOffset = 0 then 0 else s.nextOffset - 1) := by
    intro l s h
    unfold Log.HighestOffset Log.highestOffset
    rw [h]
    dsimp only
    split <;> simp_all
  have hl : ∀ (l : Log) (s : Segment), l.segments.head? = some s →
      l.LowestOffset = some s.baseOffset := by
    intro l s h
    unfold Log.LowestOffset
    rw [h]
  refine ⟨hh, hl, ?_, ?_⟩
  · intro c
    have h2 := hh (runLog c []).1 (freshSeg (withDefaults c) c.InitialOffset)
      (by unfold runLog; rw [NewLog_empty]; rfl)
    exact h2
  · intro c
    have h2 := hl (runLog c []).1 (freshSeg (withDefaults c) c.InitialOffset)
      (by unfold runLog; rw [NewLog_empty]; rfl)
    exact h2

theorem c7_witness :
    (runLog { MaxStoreBytes := 1024, MaxIndexBytes := 24,
              InitialOffset := 7 } []).1.HighestOffset = some 6
    ∧ (runLog { MaxStoreBytes := 1024, MaxIndexBytes := 24,
                InitialOffset := 7 } []).1.LowestOffset = some 7 := by
  constructor
  · have h := c7_amended.2.2.1
      { MaxStoreBytes := 1024, MaxIndexBytes := 24, InitialOffset := 7 }
    simpa using h
  · exact c7_amended.2.2.2
      { MaxStoreBytes := 1024, MaxIndexBytes := 24, InitialOffset := 7 }

/-! ## Truncation -/

theorem alGet_cons_self (k : Nat) (v : List Nat)
    (t : List (Nat × List Nat)) : alGet ((k, v) :: t) k = some v := by
  unfold alGet
  rw [List.find?_cons]
  simp

theorem alDel_cons_self (k : Nat) (v : List Nat)
    (t : List (Nat × List Nat)) : alDel ((k, v) :: t) k = t := by
  unfold alDel
  rw [if_pos rfl]

theorem Segment.Close_ok (s : Segment)
    (hso : s.store.fileOpen = true) (hio : s.index.fileOpen = true) :
    s.Close = .ok ({ s with index := { s.index with fileOpen := false },
                            store := { s.store with fileOpen := false } },
                   s.store.data, s.index.mmap.take s.index.size) := by
  unfold Segment.Close Index.Close Store.Close
  rw [if_pos hio, if_pos hso]

theorem Segment.Remove_ok (s : Segment) (fs : FS) (es ei : List Nat)
    (sts ixs : List (Nat × List Nat))
    (hso : s.store.fileOpen = true) (hio : s.index.fileOpen = true)
    (hst : fs.stores = (s.baseOffset, es) :: sts)
    (hix : fs.indexes = (s.baseOffset, ei) :: ixs) :
    s.Remove fs = .ok { fs with stores := sts, indexes := ixs } := by
  unfold Segment.Remove
  rw [Segment.Close_ok s hso hio]
  dsimp only
  rw [hix, alGet_cons_self]
  dsimp only
  rw [alDel_cons_self]
  rw [show ({ fs with
      indexes := ixs } : FS).stores = (s.baseOffset, es) :: sts from hst]
  rw [alGet_cons_self]
  dsimp only
  rw [alDel_cons_self]

theorem truncGo_keep_all (xs : List Segment) (bound : Nat) (fs : FS)
    (h : ∀ s ∈ xs, bound < s.nextOffset) :
    truncGo xs bound fs = .ok (xs, fs) := by
  induction xs with
  | nil => rfl
  | cons s rest ih =>
    unfold truncGo
    rw [if_neg (by have := h s (by simp); omega)]
    rw [ih (fun t ht => h t (by simp [ht]))]

theorem truncGo_spec (c : Config) (xs : List Segment) (bound : Nat) :
    ∀ (fs : FS),
    (∀ s ∈ xs, SegWF c s) →
    xs.Pairwise (fun a b => a.nextOffset ≤ b.baseOffset) →
    fs.stores.map Prod.fst = xs.map Segment.baseOffset →
    fs.indexes.map Prod.fst = xs.map Segment.baseOffset →
    ∃ fs2, truncGo xs bound fs
        = .ok (xs.filter (fun s => decide (bound < s.nextOffset)), fs2) ∧
      fs2.stores.map Prod.fst
        = (xs.filter (fun s => decide (bound < s.nextOffset))).map
            Segment.baseOffset ∧
      fs2.indexes.map Prod.fst
        = (xs.filter (fun s => decide (bound < s.nextOffset))).map
            Segment.baseOffset ∧
      fs2.dirExists = fs.dirExists := by
  induction xs with
  | nil =>
    intro fs _ _ hsk hik
    exact ⟨fs, rfl, by simpa using hsk, by simpa using hik, rfl⟩
  | cons s rest ih =>
    intro fs hwf hord hsk hik
    have hSs := hwf s (by simp)
    by_cases hrem : s.nextOffset ≤ bound
    · obtain ⟨es, sts, hsts⟩ : ∃ es sts,
          fs.stores = (s.baseOffset, es) :: sts := by
        cases hfs : fs.stores with
        | nil => rw [hfs] at hsk; simp at hsk
        | cons e st2 =>
          rw [hfs] at hsk
          simp only [List.map_cons, List.cons.injEq] at hsk
          exact ⟨e.2, st2, by rw [show e = (s.baseOffset, e.2) from
            Prod.ext hsk.1 rfl]⟩
      obtain ⟨ei, ixs, hixs⟩ : ∃ ei ixs,
          fs.indexes = (s.baseOffset, ei) :: ixs := by
        cases hfs : fs.indexes with
        | nil => rw [hfs] at hik; simp at hik
        | cons e ix2 =>
          rw [hfs] at hik
          simp only [List.map_cons, List.cons.injEq] at hik
          exact ⟨e.2, ix2, by rw [show e = (s.baseOffset, e.2) from
            Prod.ext hik.1 rfl]⟩
      have hrm := Segment.Remove_ok s fs es ei sts ixs
        hSs.sOpen hSs.iOpen hsts hixs
      have hih := ih { fs with stores := sts, indexes := ixs }
        (fun t ht => hwf t (by simp [ht]))
        (List.pairwise_cons.mp hord).2
        (by rw [hsts] at hsk
            simp only [List.map_cons, List.cons.injEq] at hsk
            exact hsk.2)
        (by rw [hixs] at hik
            simp only [List.map_cons, List.cons.injEq] at hik
            exact hik.2)
      obtain ⟨fs2, h1, h2, h3, h4⟩ := hih
      refine ⟨fs2, ?_, ?_, ?_, h4⟩
      · unfold truncGo
        rw [if_pos hrem, hrm]
        dsimp only
        rw [h1, List.filter_cons,
          if_neg (by simp only [decide_eq_true_eq]; omega)]
      · rw [List.filter_cons, if_neg (by simp only [decide_eq_true_eq]; omega)]
        exact h2
      · rw [List.filter_cons, if_neg (by simp only [decide_eq_true_eq]; omega)]
        exact h3
    · have hkeep : ∀ t ∈ (s :: rest), bound < t.nextOffset := by
        intro t ht
        rcases List.mem_cons.mp ht with ht | ht
        · rw [ht]; omega
        · have hst := (List.pairwise_cons.mp hord).1 t ht
          have hSt := hwf t (by simp [ht])
          have := hSt.baseLe
          omega
      have hfilter : (s :: rest).filter
          (fun s => decide (bound < s.nextOffset)) = s :: rest :=
        List.filter_eq_self.mpr (fun t ht => by
          simp only [decide_eq_true_eq]
          exact hkeep t ht)
      refine ⟨fs, ?_, ?_, ?_, rfl⟩
      · rw [truncGo_keep_all _ _ _ hkeep, hfilter]
      · rw [hfilter]; exact hsk
      · rw [hfilter]; exact hik

/-- What `Log.Truncate` produces on a well-formed state: it retains
exactly the segments with `nextOffset > (lowest+1) % 2^64` and leaves
everything else (including the active pointer) unchanged. -/
def truncatedLog (l : Log) (k : Nat) : Log :=
  { l with
    segments := l.segments.filter
        (fun s => decide ((k + 1) % W64 < s.nextOffset)) }

theorem Log.Truncate_spec (c : Config) (l : Log) (fs : FS) (k : Nat)
    (hwf : StWF c l fs) :
    ∃ fs2, l.Truncate k fs = .ok (truncatedLog l k, fs2) ∧
      fs2.stores.map Prod.fst
        = (truncatedLog l k).segments.map Segment.baseOffset ∧
      fs2.indexes.map Prod.fst
        = (truncatedLog l k).segments.map Segment.baseOffset ∧
      fs2.dirExists = true := by
  obtain ⟨fs2, h1, h2, h3, h4⟩ := truncGo_spec c l.segments ((k + 1) % W64)
    fs hwf.logWF.segs hwf.logWF.ordered hwf.storeKeys hwf.indexKeys
  refine ⟨fs2, ?_, ?_, ?_, by rw [h4]; exact hwf.dir⟩
  · unfold Log.Truncate
    rw [h1]
    rfl
  · simpa [truncatedLog] using h2
  · simpa [truncatedLog] using h3

/-- In an ordered segment list, at most one segment's range contains a
given offset. -/
theorem contains_unique (c : Config) (l : Log) (hwf : LogWF c l) (o : Nat)
    (s t : Segment) (hs : s ∈ l.segments) (ht : t ∈ l.segments)
    (hso : s.baseOffset ≤ o ∧ o < s.nextOffset)
    (hto : t.baseOffset ≤ o ∧ o < t.nextOffset) : s = t := by
  by_contra hne
  have hP : l.segments.Pairwise (fun a b =>
      ¬((a.baseOffset ≤ o ∧ o < a.nextOffset)
        ∧ (b.baseOffset ≤ o ∧ o < b.nextOffset))) :=
    hwf.ordered.imp (fun hab hc => by omega)
  have hsym : Symmetric (fun (a b : Segment) =>
      ¬((a.baseOffset ≤ o ∧ o < a.nextOffset)
        ∧ (b.baseOffset ≤ o ∧ o < b.nextOffset))) := by
    intro a b hab hc
    exact hab ⟨hc.2, hc.1⟩
  exact hP.forall hsym hs ht hne ⟨hso, hto⟩

/-- `find?` commutes with a filter that keeps the (unique) found
element. -/
theorem find?_filter_found {p q : Segment → Bool} (xs : List Segment)
    (s : Segment) (hf : xs.find? q = some s) (hp : p s = true)
    (huniq : ∀ t ∈ xs, q t = true → t = s) :
    (xs.filter p).find? q = some s := by
  induction xs with
  | nil => simp at hf
  | cons t rest ih =>
    rw [List.find?_cons] at hf
    by_cases hqt : q t = true
    · have hts : t = s := huniq t (by simp) hqt
      rw [List.filter_cons, if_pos (by rw [hts]; exact hp),
        List.find?_cons, hqt]
      rw [hqt] at hf
      exact hf
    · have hqf : q t = false := by revert hqt; cases q t <;> simp
      rw [hqf] at hf
      dsimp only at hf
      have ih2 := ih hf (fun u hu hqu => huniq u (by simp [hu]) hqu)
      rw [List.filter_cons]
      by_cases hpt : p t = true
      · rw [if_pos hpt, List.find?_cons, hqf]
        exact ih2
      · rw [if_neg (by simp [hpt])]
        exact ih2

/-! ## Claim C4 — Truncate -/

/-- C4 (corrected) — the claim as stated fails: with two records at
offsets 0 and 1 in one segment, `Truncate(0)` retains the segment
(`nextOffset = 2 > 0 + 1`), and offset `0 ≤ k = 0` is still readable
afterwards, contradicting "no offset ≤ k remains readable". -/
theorem c4_counterexample :
    (runLog { MaxStoreBytes := 1024, MaxIndexBytes := 24,
              InitialOffset := 0 }
       [{ Value := [1], Offset := 0 }, { Value := [2], Offset := 0 }]
     |> fun out =>
       match out.1.Truncate 0 out.2.1 with
       | .error _ => none
       | .ok p => some (p.1.Read 0))
      = some (.ok { Value := [1], Offset := 0 }) := by
  rfl

/-- C4 (amended): after a successful `Truncate(k)` (with `k+1 < 2^64`;
at the boundary `k+1` wraps), exactly the segments with
`nextOffset ≤ k+1` are removed; every offset `> k` that was readable
stays readable with the same record; moreover every offset lying in a
retained segment — including offsets `≤ k` — stays readable with the
same record, and only offsets of removed segments become unreadable
(failing with `ErrOffsetOutOfRange`). -/
theorem c4_amended (c : Config) (l : Log) (fs : FS) (k : Nat)
    (hwf : StWF c l fs) (hk : k + 1 < W64) :
    (∃ fs2, l.Truncate k fs = .ok ({ l with
      segments := l.segments.filter
        (fun s => decide (k + 1 < s.nextOffset)) }, fs2)) ∧
    (∀ o r0, l.Read o = .ok r0 → k < o →
      (truncatedLog l k).Read o = .ok r0) ∧
    (∀ o r0 t, l.Read o = .ok r0 → t ∈ l.segments →
      t.baseOffset ≤ o → o < t.nextOffset → k + 1 < t.nextOffset →
      (truncatedLog l k).Read o = .ok r0) ∧
    (∀ o t, t ∈ l.segments → t.baseOffset ≤ o → o < t.nextOffset →
      t.nextOffset ≤ k + 1 →
      (truncatedLog l k).Read o = .error (.outOfRange o)) := by
  have hmod : (k + 1) % W64 = k + 1 := Nat.mod_eq_of_lt hk
  have hL := hwf.logWF
  have hretained : ∀ o r0 t, l.Read o = .ok r0 → t ∈ l.segments →
      t.baseOffset ≤ o → o < t.nextOffset → k + 1 < t.nextOffset →
      (truncatedLog l k).Read o = .ok r0 := by
    intro o r0 t h hmem hb ho hkt
    obtain ⟨s, hf, hsr⟩ := Log.Read_ok_elim l o r0 h
    have hps := List.find?_some hf
    simp only [Bool.and_eq_true, decide_eq_true_eq] at hps
    have hst : s = t := contains_unique c l hL o s t
      (List.mem_of_find?_eq_some hf) hmem hps ⟨hb, ho⟩
    refine Log.Read_found _ o s r0 ?_ hsr
    show ((truncatedLog l k).segments).find? _ = some s
    unfold truncatedLog
    dsimp only
    refine find?_filter_found l.segments s hf ?_ ?_
    · simp only [decide_eq_true_eq]
      rw [hmod, hst]
      exact hkt
    · intro u hu hqu
      simp only [Bool.and_eq_true, decide_eq_true_eq] at hqu
      exact contains_unique c l hL o u s hu
        (List.mem_of_find?_eq_some hf) hqu hps
  refine ⟨?_, ?_, hretained, ?_⟩
  · obtain ⟨fs2, h1, _⟩ := Log.Truncate_spec c l fs k hwf
    refine ⟨fs2, ?_⟩
    rw [h1]
    unfold truncatedLog
    rw [hmod]
  · intro o r0 h hko
    obtain ⟨s, hf, hsr⟩ := Log.Read_ok_elim l o r0 h
    have hps := List.find?_some hf
    simp only [Bool.and_eq_true, decide_eq_true_eq] at hps
    exact hretained o r0 s h (List.mem_of_find?_eq_some hf) hps.1 hps.2
      (by omega)
  · intro o t hmem hb ho hrem
    rw [Log.Read_oor_iff]
    intro u hu hcont
    unfold truncatedLog at hu
    dsimp only at hu
    rw [List.mem_filter] at hu
    have hut : u = t := contains_unique c l hL o u t hu.1 hmem hcont ⟨hb, ho⟩
    have := hu.2
    simp only [decide_eq_true_eq] at this
    rw [hmod, hut] at this
    omega

theorem c4_witness :
    (truncatedLog (runLog { MaxStoreBytes := 1024, MaxIndexBytes := 24,
                            InitialOffset := 0 }
        [{ Value := [1], Offset := 0 }, { Value := [2], Offset := 0 }]).1
      0).Read 1 = .ok { Value := [2], Offset := 1 } :=
  (c4_amended (withDefaults { MaxStoreBytes := 1024, MaxIndexBytes := 24,
                              InitialOffset := 0 }) _ _ 0
    (runLog_spec { MaxStoreBytes := 1024, MaxIndexBytes := 24,
                   InitialOffset := 0 }
      [{ Value := [1], Offset := 0 }, { Value := [2], Offset := 0 }]
      ⟨by decide, by decide, by decide, by decide⟩ (by decide)
      (by decide)).1
    (by decide)).2.1 1 { Value := [2], Offset := 1 } (by rfl) (by decide)

/-! ## Claim C8 — structural invariants -/

/-- The log and directory state after one append and a full truncation
(used by the C8 counterexample): a single record at offset 0, then
`Truncate(0)`, which removes the only (active) segment. -/
def c8state : Except Unit (Log × FS) :=
  let out := runLog { MaxStoreBytes := 1024, MaxIndexBytes := 24,
                      InitialOffset := 0 } [{ Value := [1], Offset := 0 }]
  out.1.Truncate 0 out.2.1

/-- C8 (corrected) — the claim as stated fails: a `Truncate` that
removes the last (active) segment leaves the segment list empty while
`activeSegment` still points at the removed segment, so "active is
always the last element" does not survive it, and the next `Append`
panics (modelled as an error) on the empty segment slice. -/
theorem c8_counterexample :
    c8state.map (fun p => (p.1.segments.isEmpty, p.1.active.isSome,
      (p.1.Append { Value := [2], Offset := 0 } p.2).1))
      = .ok (true, true, .error ()) := by
  rfl

/-- C8 (amended): `Append` (including its rotation) and the initial
`setup` preserve the structural invariants — well-formed ordered
segments with the active pointer aliasing the last element, hence
exactly one segment covering each accepted offset (`contains_unique`).
`Truncate` preserves them if and only if at least one segment is
retained; when it removes every segment (the active one included), the
invariant is broken: the segment list is empty while the active pointer
is still set. -/
theorem c8_amended (c : Config) (l : Log) (fs : FS) (r : Record)
    (k M : Nat) (hc : ConfWF c) (hwf : StWF c l fs)
    (hnw : lastNext l + 1 < W64)
    (hM : ∀ s ∈ l.segments, s.store.data.length ≤ M)
    (hMW : M + recBytes r < W64) :
    LogWF c (l.Append r fs).2.1 ∧
    ((∃ t ∈ l.segments, (k + 1) % W64 < t.nextOffset) →
      LogWF c (truncatedLog l k)) ∧
    ((∀ t ∈ l.segments, t.nextOffset ≤ (k + 1) % W64) →
      (truncatedLog l k).segments = [] ∧
        (truncatedLog l k).active ≠ none) ∧
    (∀ c0 : Config, ConfWF (withDefaults c0) →
      LogWF (withDefaults c0) (runLog c0 []).1) := by
  refine ⟨(Log.Append_step c l fs r M hc hwf hnw hM hMW).2.1.logWF,
    ?_, ?_, ?_⟩
  · intro ⟨t, htmem, htkeep⟩
    have hL := hwf.logWF
    obtain ⟨act, hact⟩ : ∃ a, l.segments.getLast? = some a := by
      cases hg : l.segments.getLast? with
      | none => exact absurd (List.getLast?_eq_none_iff.mp hg) hL.ne
      | some a => exact ⟨a, rfl⟩
    have hdec := segments_decomp l act hact
    have hallnext : ∀ s ∈ l.segments, s.nextOffset ≤ act.nextOffset := by
      intro s hs
      rw [← hdec] at hs
      rcases List.mem_append.mp hs with hs | hs
      · have h1 := pairwise_with_last _ _
          (by rw [hdec]; exact hL.ordered) s hs
        have h2 := (hL.segs act (getLast?_mem' _ _ hact)).baseLe
        omega
      · rw [List.mem_singleton] at hs
        rw [hs]
    have hactkeep : (k + 1) % W64 < act.nextOffset := by
      have := hallnext t htmem
      omega
    have hfl : (truncatedLog l k).segments
        = l.segments.dropLast.filter
            (fun s => decide ((k + 1) % W64 < s.nextOffset)) ++ [act] := by
      unfold truncatedLog
      dsimp only
      conv_lhs => rw [← hdec]
      rw [List.filter_append, List.filter_cons,
        if_pos (by simpa using hactkeep)]
      rfl
    refine ⟨hL.cfgEq, by rw [hfl]; simp, ?_, ?_, ?_, ?_⟩
    · intro s hs
      exact hL.segs s (List.mem_filter.mp
        (by unfold truncatedLog at hs; dsimp only at hs; exact hs)).1
    · exact hL.ordered.sublist (List.filter_sublist _)
    · exact hL.strictB.sublist (List.filter_sublist _)
    · show l.active = _
      rw [hL.activeLast, hfl, ← hdec, List.getLast?_concat,
        List.getLast?_concat]
  · intro hall
    have hempty : (truncatedLog l k).segments = [] := by
      unfold truncatedLog
      dsimp only
      rw [List.filter_eq_nil_iff]
      intro s hs
      simp only [decide_eq_true_eq, not_lt]
      exact hall s hs
    refine ⟨hempty, ?_⟩
    show l.active ≠ none
    rw [hwf.logWF.activeLast]
    intro hnone
    exact hwf.logWF.ne (List.getLast?_eq_none_iff.mp hnone)
  · intro c0 hc0
    unfold runLog
    rw [NewLog_empty]
    exact (StWF_init c0 hc0).logWF

theorem c8_witness :
    LogWF (withDefaults { MaxStoreBytes := 1024, MaxIndexBytes := 24,
                          InitialOffset := 0 })
      (truncatedLog (runLog { MaxStoreBytes := 1024, MaxIndexBytes := 24,
                              InitialOffset := 0 }
          [{ Value := [1], Offset := 0 }, { Value := [2], Offset := 0 }]).1
        0) := by
  have hsp := runLog_spec { MaxStoreBytes := 1024, MaxIndexBytes := 24,
                            InitialOffset := 0 }
    [{ Value := [1], Offset := 0 }, { Value := [2], Offset := 0 }]
    ⟨by decide, by decide, by decide, by decide⟩ (by decide) (by decide)
  exact (c8_amended _ _ _ { Value := [3], Offset := 0 } 0 (valsBytes
      [{ Value := [1], Offset := 0 }, { Value := [2], Offset := 0 }])
    ⟨by decide, by decide, by decide, by decide⟩ hsp.1
    (by rw [hsp.2.1]; decide) hsp.2.2.2.2 (by decide)).2.1 (by decide)

/-! ## Claim C9 — idempotent close -/

/-- The segment after `Close`: both file descriptors closed. -/
def closedSeg (s : Segment) : Segment :=
  { s with index := { s.index with fileOpen := false },
           store := { s.store with fileOpen := false } }

theorem closeSegs_spec (xs : List Segment) :
    ∀ fs : FS,
    (∀ s ∈ xs, s.store.fileOpen = true ∧ s.index.fileOpen = true) →
    ∃ fs2, closeSegs xs fs = .ok (xs.map closedSeg, fs2) ∧
      fs2.dirExists = fs.dirExists ∧
      fs2.stores = xs.foldl
        (fun acc s => alSet acc s.baseOffset s.store.data) fs.stores ∧
      fs2.indexes = xs.foldl
        (fun acc s => alSet acc s.baseOffset
          (s.index.mmap.take s.index.size)) fs.indexes := by
  induction xs with
  | nil => intro fs _; exact ⟨fs, rfl, rfl, rfl, rfl⟩
  | cons s rest ih =>
    intro fs hopen
    have hs := hopen s (by simp)
    obtain ⟨fs2, h1, h2, h3, h4⟩ := ih
      { fs with stores := alSet fs.stores s.baseOffset s.store.data,
                indexes := alSet fs.indexes s.baseOffset
                  (s.index.mmap.take s.index.size) }
      (fun t ht => hopen t (by simp [ht]))
    refine ⟨fs2, ?_, h2, h3, h4⟩
    unfold closeSegs
    rw [Segment.Close_ok s hs.1 hs.2]
    dsimp only
    rw [h1]
    rfl

theorem closeSegs_closed_head (s : Segment) (rest : List Segment) (fs : FS)
    (h : s.index.fileOpen = false) :
    closeSegs (s :: rest) fs = .error () := by
  unfold closeSegs Segment.Close Index.Close
  rw [h, if_neg Bool.false_ne_true]

/-- C9 (corrected) — the claim as stated fails for the `Log`: closing a
freshly created log succeeds, and a second `Close` on it returns an
error (re-closing the already-closed index file), because `Log.Close`
has no `closed` flag. -/
theorem c9_counterexample :
    (((runLog { MaxStoreBytes := 1024, MaxIndexBytes := 24,
                  InitialOffset := 0 } []).1.Close
      (runLog { MaxStoreBytes := 1024, MaxIndexBytes := 24,
                  InitialOffset := 0 } []).2.1).toOption.isSome = true)
    ∧ (((runLog { MaxStoreBytes := 1024, MaxIndexBytes := 24,
                    InitialOffset := 0 } []).1.Close
      (runLog { MaxStoreBytes := 1024, MaxIndexBytes := 24,
                  InitialOffset := 0 } []).2.1).bind
        (fun p => p.1.Close p.2) = .error ()) := by
  constructor <;> rfl

theorem lazyInit_close_idem (r : Replicator) : ({ r.lazyInit with closed := true, closeChClosed := true } : Replicator).lazyInit = { r.lazyInit with closed := true, closeChClosed := true } := rfl

/-- C9 (amended): the `Replicator` implements idempotent close through
its `closed` flag — a second `Close` is a no-op returning `nil` and
leaving the state unchanged — but `Log.Close` has no such flag: it
unconditionally re-closes every segment, so on a (well-formed, hence
nonempty) log the first `Close` succeeds and a second `Close` returns
an error from the already-closed index file. -/
theorem c9_amended :
    (∀ rp : Replicator, ∃ r1, rp.Close = .ok r1 ∧ r1.Close = .ok r1) ∧
    (∀ (c : Config) (l : Log) (fs : FS), StWF c l fs →
      ∃ lc fsc, l.Close fs = .ok (lc, fsc) ∧ lc.Close fsc = .error ()) := by
  constructor
  · intro rp
    by_cases hcl : rp.lazyInit.closed = true
    · refine ⟨rp.lazyInit, ?_, ?_⟩
      · simp only [Replicator.Close]
        rw [if_pos hcl]
      · simp only [Replicator.Close]
        have hinit : rp.lazyInit.lazyInit = rp.lazyInit := rfl
        rw [hinit, if_pos hcl]
    · refine ⟨{ rp.lazyInit with closed := true, closeChClosed := true },
        ?_, ?_⟩
      · simp only [Replicator.Close]
        rw [if_neg hcl]
      · simp only [Replicator.Close]
        rw [lazyInit_close_idem rp, if_pos rfl]
  · intro c l fs hwf
    obtain ⟨fs2, h1, _, _, _⟩ := closeSegs_spec l.segments fs
      (fun s hs => ⟨(hwf.logWF.segs s hs).sOpen, (hwf.logWF.segs s hs).iOpen⟩)
    obtain ⟨s0, rest, hsr⟩ : ∃ s0 rest, l.segments = s0 :: rest := by
      cases hseg : l.segments with
      | nil => exact absurd hseg hwf.logWF.ne
      | cons a b => exact ⟨a, b, rfl⟩
    have hact : ∀ a, (match (l.segments.map closedSeg).getLast? with
        | none => a
        | some s => some s) = (l.segments.map closedSeg).getLast? := by
      intro a
      rw [hsr]
      cases hg : ((s0 :: rest).map closedSeg).getLast? with
      | none => simp at hg
      | some x => rfl
    refine ⟨{ l with segments := l.segments.map closedSeg,
                     active := (l.segments.map closedSeg).getLast? },
            fs2, ?_, ?_⟩
    · unfold Log.Close
      rw [h1]
      dsimp only
      rw [hact l.active]
    · unfold Log.Close
      rw [show (({ l with segments := l.segments.map closedSeg,
                          active := (l.segments.map closedSeg).getLast? }
            : Log)).segments
          = closedSeg s0 :: rest.map closedSeg by
        dsimp only; rw [hsr]; rfl]
      rw [closeSegs_closed_head _ _ _ rfl]

theorem c9_witness :
    (∃ r1, Replicator.Close { servers := none, closed := false,
                                closeChAlloc := false, closeChClosed := false,
                                loggerAlloc := false }
      = .ok r1 ∧ r1.Close = .ok r1) ∧
    (∃ lc fsc,
      (runLog { MaxStoreBytes := 1024, MaxIndexBytes := 24,
                  InitialOffset := 0 } [{ Value := [1], Offset := 0 }]).1.Close
        (runLog { MaxStoreBytes := 1024, MaxIndexBytes := 24,
                    InitialOffset := 0 } [{ Value := [1], Offset := 0 }]).2.1
        = .ok (lc, fsc) ∧ lc.Close fsc = .error ()) :=
  ⟨c9_amended.1 { servers := none, closed := false, closeChAlloc := false,
                  closeChClosed := false, loggerAlloc := false },
   c9_amended.2 _ _ _
    (runLog_spec { MaxStoreBytes := 1024, MaxIndexBytes := 24,
                     InitialOffset := 0 } [{ Value := [1], Offset := 0 }]
      ⟨by decide, by decide, by decide, by decide⟩ (by decide) (by decide)).1⟩

/-! ## Claim C10 — `Reset` always fails

`Log.Remove` deletes the data directory; the subsequent `setup` inside
`Reset` finds no directory and fails, because nothing recreates it
(`NewLog`'s caller, not the log, makes the directory in the Go tests).
Hence `Reset` can never succeed. -/

/-- C10 — as claimed by the spec, `Reset` always returns an error: it
removes the directory and then runs `setup`, which fails with the
directory missing, for every log and file system whatsoever. -/
theorem c10_claim (l : Log) (fs : FS) : l.Reset fs = .error () := by
  unfold Log.Reset Log.Remove
  cases h : l.Close fs with
  | error e => rfl
  | ok p => rfl

/-! ## Claim C6 — the index read/write contract

`index.Write` behaves exactly as claimed.  `index.Read`, however,
converts its `int64` argument with `uint32(in)`: an argument of `2^32`
is truncated to entry `0`, so the claimed guard "OutOfRange when
`size < n*12 + 12`" is wrong for `n ≥ 2^32` — the entry actually read
is `n mod 2^32`. -/

/-- C6 (corrected) — concrete counterexample to the claimed `Read`
guard: after writing the single entry `(5, 7)` into a fresh 24-byte
index (`size = 12`), reading entry number `2^32 = 4294967296` should be
out of range by the claim (`12 < 4294967296*12 + 12`), yet the code
truncates the argument to `uint32` and returns entry `0 = (5, 7)`. -/
theorem c6_counterexample :
    ((newIndex [] 24).Write 5 7).toOption.bind
        (fun i2 => i2.Read (4294967296 : Int)) = some (5, 7)
    ∧ ((newIndex [] 24).Write 5 7).toOption.map Index.size = some 12
    ∧ (12 : Nat) < 4294967296 * 12 + 12 := by
  refine ⟨by decide, by decide, by decide⟩

/-- C6 (amended): the index contract with the `uint32` truncation made
explicit.  `Write` fails with `io.EOF` exactly when the mapping cannot
hold another entry, and otherwise appends the 12-byte big-endian entry
and advances `size`; a written entry reads back both by its entry
number and via `-1`.  `Read` fails on an empty index; for a nonnegative
argument `n` the entry consulted is `n mod 2^32` — the read fails when
that entry does not fit in the used prefix, and decodes it when it does
and the used prefix fits the mapping (`size ≤ len(mmap)`, as every
index whose file respected `MaxIndexBytes` satisfies; when `size`
overruns the mapping the code instead panics slicing `mmap`). -/
theorem c6_amended (i : Index) (off pos n c : Nat) :
    (i.mmap.length < i.size + entWidth → i.Write off pos = .error ()) ∧
    (i.size + entWidth ≤ i.mmap.length → i.size = c * entWidth →
      c + 1 ≤ W32 → off < W32 → pos < W64 →
      ∃ i2, i.Write off pos = .ok i2 ∧ i2.size = i.size + entWidth ∧
        i2.Read ((c : Nat) : Int) = some (off, pos) ∧
        i2.Read (-1) = some (off, pos)) ∧
    (i.size = 0 → i.Read ((n : Nat) : Int) = none ∧ i.Read (-1) = none) ∧
    (0 < i.size → i.size < n % W32 * entWidth + entWidth →
      i.Read ((n : Nat) : Int) = none) ∧
    (0 < i.size → n % W32 * entWidth + entWidth ≤ i.size →
      i.size ≤ i.mmap.length →
      i.Read ((n : Nat) : Int) = some (rawEntry i.mmap (n % W32))) := by
  refine ⟨fun h => Index.Write_error i off pos h, ?_, ?_, ?_, ?_⟩
  · intro hlen hsz hc hoff hpos
    have hmm : c * entWidth + entWidth ≤ i.mmap.length := by
      rw [← hsz]; exact hlen
    have hbe : (be 4 off ++ be 8 pos).length = entWidth := by
      rw [List.length_append, be_length, be_length]
      rfl
    have hwl : (writeAt i.mmap i.size (be 4 off ++ be 8 pos)).length
        = i.mmap.length := by
      rw [writeAt_length _ _ _ (by rw [hbe]; exact hlen)]
    have hrE : rawEntry (writeAt i.mmap i.size (be 4 off ++ be 8 pos)) c
        = (off, pos) := by
      rw [hsz, rawEntry_writeAt_self i.mmap c off pos hmm,
        Nat.mod_eq_of_lt hoff, Nat.mod_eq_of_lt hpos]
    refine ⟨_, Index.Write_ok i off pos hlen, rfl, ?_, ?_⟩
    · rw [Index.Read_nonneg _ c (by omega) (by dsimp only; omega)
        (by dsimp only; rw [hwl]; omega)]
      dsimp only
      rw [hrE]
    · rw [Index.Read_neg1 _ (c + 1) (by omega) hc
        (by dsimp only; rw [hsz]; ring)
        (by dsimp only; rw [hwl]; omega)]
      dsimp only
      rw [Nat.add_sub_cancel, hrE]
  · intro h0
    constructor <;> (unfold Index.Read; rw [if_pos h0])
  · intro hp hlt
    unfold Index.Read
    have hnum : i.entryNum ((n : Nat) : Int) = n % W32 := by
      unfold Index.entryNum
      rw [if_neg (by omega), u32ofInt_natCast]
    rw [hnum, if_neg (by omega), if_pos hlt]
  · intro hp hle hml
    unfold Index.Read
    have hnum : i.entryNum ((n : Nat) : Int) = n % W32 := by
      unfold Index.entryNum
      rw [if_neg (by omega), u32ofInt_natCast]
    rw [hnum, if_neg (by omega), if_neg (by omega), if_neg (by omega)]

theorem c6_witness :
    ∃ i2, (newIndex [] 24).Write 5 7 = .ok i2 ∧
      i2.size = (newIndex [] 24).size + entWidth ∧
      i2.Read ((0 : Nat) : Int) = some (5, 7) ∧
      i2.Read (-1) = some (5, 7) :=
  (c6_amended (newIndex [] 24) 5 7 0 0).2.1 (by decide) (by decide)
    (by decide) (by decide) (by decide)

/-! ## Claim C3 — close/reopen round-trip

Machinery: the directory contents after `Close`, the sorted/deduplicated
base-offset listing that `setup` reconstructs, and the segment produced
by `newSegment` on a closed segment's files. -/

theorem rawEntry_reopen (m : List Nat) (M sz k : Nat)
    (hk : k * entWidth + entWidth ≤ sz) (hszm : sz ≤ m.length)
    (hszM : sz ≤ M) :
    rawEntry (padTrunc M (m.take sz)) k = rawEntry m k := by
  have hfit : k * entWidth + offWidth ≤ (m.take sz).length := by
    rw [List.length_take]
    simp only [entWidth, offWidth, posWidth] at hk ⊢
    omega
  have hfit2 : (k * entWidth + offWidth) + posWidth ≤ (m.take sz).length := by
    rw [List.length_take]
    simp only [entWidth, offWidth, posWidth] at hk ⊢
    omega
  unfold rawEntry
  rw [sliceB_padTrunc _ _ _ _ hfit
      (by simp only [entWidth, offWidth, posWidth] at hk ⊢; omega),
    sliceB_padTrunc _ _ _ _ hfit2
      (by simp only [entWidth, offWidth, posWidth] at hk ⊢; omega),
    sliceB_take _ _ _ _
      (by simp only [entWidth, offWidth, posWidth] at hk ⊢; omega),
    sliceB_take _ _ _ _
      (by simp only [entWidth, offWidth, posWidth] at hk ⊢; omega)]

/-- The segment `newSegment` reconstructs from a closed segment's files:
same base and next offset, the store re-read from its bytes, the index
re-mapped from the truncated file. -/
def reopenSeg (c : Config) (s : Segment) : Segment :=
  { store := newStore s.store.data,
    index := newIndex (s.index.mmap.take s.index.size) c.MaxIndexBytes,
    baseOffset := s.baseOffset,
    nextOffset := s.nextOffset,
    config := c }

theorem reopenSeg_WF (c : Config) (s : Segment) (hwf : SegWF c s) :
    SegWF c (reopenSeg c s) := by
  have hsl : s.index.size ≤ s.index.mmap.length := by
    rw [hwf.mmapLen]; exact hwf.sizeLe
  have htl : (s.index.mmap.take s.index.size).length = s.index.size := by
    rw [List.length_take]; omega
  refine ⟨rfl, hwf.baseLe, hwf.nextLt, hwf.cnt32, ?_, ?_, ?_, rfl, rfl, rfl,
    ?_, ?_⟩
  · show (s.index.mmap.take s.index.size).length = _
    rw [htl, hwf.sizeEq]
    rfl
  · show (padTrunc c.MaxIndexBytes
      (s.index.mmap.take s.index.size)).length = _
    exact padTrunc_length _ _
  · show (s.index.mmap.take s.index.size).length ≤ _
    rw [htl]; exact hwf.sizeLe
  · intro hnb
    exact hwf.storeCnt hnb
  · intro k hk
    have h1 : k + 1 ≤ s.nextOffset - s.baseOffset := hk
    have hkk : k * entWidth + entWidth ≤ s.index.size := by
      rw [hwf.sizeEq]
      calc k * entWidth + entWidth = (k + 1) * entWidth := by ring
        _ ≤ (s.nextOffset - s.baseOffset) * entWidth :=
          Nat.mul_le_mul_right _ h1
    show (rawEntry (padTrunc c.MaxIndexBytes
      (s.index.mmap.take s.index.size)) k).1 = k
    rw [rawEntry_reopen s.index.mmap c.MaxIndexBytes s.index.size k hkk hsl
      hwf.sizeLe]
    exact hwf.rels k hk

